import Mathlib

/-!
# MLFQ scheduler simulation (`mlfq.c`)

A shallow embedding of the multi-level feedback queue simulator and a
verification of its scheduling properties.

Modelling conventions.

* A `Process*` is a natural number (an address); the records live in
  `State.mem : Nat → Process`.  `process_list[i]` is the address `i`, so the
  process list handed to `simulate_mlfq` is `mem` restricted to
  `i < num_processes`; distinct list entries are distinct records.
* `int` values are mathematical integers (`Int`); signed overflow is undefined
  behaviour in C and is not modelled.  `INT_MAX` is the 32-bit value.
* `queues[q]` is the list of slots written so far, so `rear[q]` is its length
  and `queues[q][rear[q]++] = p` appends `p`.  `front[q]` is kept as in the
  source; the waiting processes of queue `q` are the slots `front[q] .. rear[q]-1`.
  The arrays are not bounded in the model.
* `printf` output is the event list `State.out`; `free(p)` records `p` in
  `State.freed`.
-/

namespace Mlfq

/-! ## Constants and configuration -/

def NUM_QUEUES : Nat := 3

def MAX_PROCESSES : Nat := 100

def RESET_PERIOD : Int := 50

def INT_MAX : Int := 2147483647

/-- Process structure of `mlfq.c`. -/
structure Process where
  pid : Int
  arrival_time : Int
  remaining_time : Int
  current_queue_idx : Nat
  total_time_in_level : Int
  last_executed_time : Int
  deriving DecidableEq, Inhabited

/-- Array `time_quantum[NUM_QUEUES] = {16, 8, 4}`. -/
def time_quantum : Nat → Int
  | 0 => 16
  | 1 => 8
  | 2 => 4
  | _ => 0

/-- Array `time_allotment[NUM_QUEUES] = {INT_MAX, 20, 10}`. -/
def time_allotment : Nat → Int
  | 0 => INT_MAX
  | 1 => 20
  | 2 => 10
  | _ => 0

/-- One line of program output. -/
inductive Event where
  | arrives (pid : Int) (time : Int)
  | queueState (time : Int) (rows : List (Nat × List (Int × Int)))
  | running (pid : Int) (q : Nat) (exec_time : Int)
  | completed (pid : Int) (time : Int)
  | demoted (pid : Int) (q : Nat)
  | priorityReset (time : Int)
  | movedToTop (pid : Int)
  deriving DecidableEq

/-- Global variables of the program, the local `process_idx` of
`simulate_mlfq`, the record store, the freed addresses and the output. -/
structure State where
  mem : Nat → Process
  queues : Nat → List Nat
  front : Nat → Nat
  current_time : Int
  process_idx : Nat
  freed : List Nat
  out : List Event

/-- Index `rear[q]`: the number of slots of `queues[q]` written so far. -/
def State.rear (s : State) (q : Nat) : Nat := (s.queues q).length

/-- The waiting processes of queue `q`: slots `front[q] .. rear[q]-1`. -/
def State.live (s : State) (q : Nat) : List Nat := (s.queues q).drop (s.front q)

/-- Expression `queues[q][front[q]]`, read when `front[q] < rear[q]`. -/
def State.head (s : State) (q : Nat) (h : s.front q < s.rear q) : Nat :=
  (s.queues q).get ⟨s.front q, h⟩

/-- Statement `front[q]++`. -/
def State.advance (s : State) (q : Nat) : State :=
  { s with front := Function.update s.front q (s.front q + 1) }

/-- Statement `queues[q][rear[q]++] = p`. -/
def State.enqueue (s : State) (q : Nat) (p : Nat) : State :=
  { s with queues := Function.update s.queues q (s.queues q ++ [p]) }

/-- Assignment to the record at address `p`. -/
def State.store (s : State) (p : Nat) (r : Process) : State :=
  { s with mem := Function.update s.mem p r }

/-- Statement `printf(...)`. -/
def State.print (s : State) (e : Event) : State :=
  { s with out := s.out ++ [e] }

/-- Function `queues_empty`. -/
def queues_empty_loop (s : State) : Nat → Nat → Bool
  | 0, _ => true
  | k + 1, i => if s.front i < s.rear i then false else queues_empty_loop s k (i + 1)

def queues_empty (s : State) : Bool := queues_empty_loop s NUM_QUEUES 0

/-- Function `create_process`. -/
def create_process (pid arrival_time burst_time : Int) : Process :=
  { pid := pid
    arrival_time := arrival_time
    remaining_time := burst_time
    current_queue_idx := 2
    total_time_in_level := 0
    last_executed_time := 0 }

/-! ## Priority reset -/

/-- Body of the `while` loop of `priority_reset` for queue `q`. -/
def reset_move (q : Nat) (s : State) (h : s.front q < s.rear q) : State :=
  let p := s.head q h
  let s := s.advance q
  let s := s.store p { s.mem p with current_queue_idx := 2 }
  let s := s.enqueue 2 p
  s.print (Event.movedToTop (s.mem p).pid)

/-- Loop `while (front[q] < rear[q])` of `priority_reset`, at most `k` rounds. -/
def reset_queue (q : Nat) : Nat → State → State
  | 0, s => s
  | k + 1, s => if h : s.front q < s.rear q then reset_queue q k (reset_move q s h) else s

/-- Function `priority_reset`: queue 1 is drained, then queue 0.  Each `while`
loop gets as many rounds as the queue has waiting processes. -/
def priority_reset (s : State) : State :=
  let s := reset_queue 1 (s.rear 1 - s.front 1) s
  reset_queue 0 (s.rear 0 - s.front 0) s

/-! ## Display -/

def display_row (s : State) (q : Nat) : Nat × List (Int × Int) :=
  (q, (s.live q).map (fun p => ((s.mem p).pid, (s.mem p).remaining_time)))

/-- Function `display_queues`. -/
def display_queues (s : State) : State :=
  s.print (Event.queueState s.current_time [display_row s 2, display_row s 1, display_row s 0])

/-! ## The main loop -/

/-- Arrival loop of `simulate_mlfq`, at most `k` rounds. -/
def arrivals (num_processes : Nat) : Nat → State → State
  | 0, s => s
  | k + 1, s =>
    if s.process_idx < num_processes ∧
        (s.mem s.process_idx).arrival_time ≤ s.current_time then
      let arriving_process := s.process_idx
      let s := { s with process_idx := s.process_idx + 1 }
      let s := s.print (Event.arrives (s.mem arriving_process).pid s.current_time)
      arrivals num_processes k (s.enqueue 2 arriving_process)
    else s

/-- Slice computed for record `p` selected from queue `q` (the two assignments
to `exec_time`). -/
def exec_time (p : Process) (q : Nat) : Int :=
  let exec_time := if p.remaining_time < time_quantum q then p.remaining_time else time_quantum q
  if p.total_time_in_level + exec_time > time_allotment q then
    time_allotment q - p.total_time_in_level
  else exec_time

/-- Record of the selected process after the run (the three assignments that
follow the `Running` line) and before the routing decision. -/
def run_record (p : Process) (q : Nat) (now : Int) : Process :=
  { p with
    remaining_time := p.remaining_time - exec_time p q
    total_time_in_level := p.total_time_in_level + exec_time p q
    last_executed_time := now }

/-- Routing of the process at address `p`, selected from queue `q`, after its
run: completion, demotion or requeue. -/
def route (q : Nat) (p : Nat) (s : State) : State :=
  if (s.mem p).remaining_time = 0 then
    let s := s.print (Event.completed (s.mem p).pid s.current_time)
    { s with freed := s.freed ++ [p] }
  else if (s.mem p).total_time_in_level ≥ time_allotment q then
    let s := s.store p { s.mem p with current_queue_idx := if q > 0 then q - 1 else 0 }
    let s := s.store p { s.mem p with total_time_in_level := 0 }
    let s := s.enqueue (s.mem p).current_queue_idx p
    s.print (Event.demoted (s.mem p).pid (s.mem p).current_queue_idx)
  else s.enqueue q p

/-- First part of the body of `if (front[q] < rear[q])` in the scheduling loop:
the head of queue `q` is dequeued, its slice computed and printed, its record
and the clock updated.  The result is the state on entry to the routing
decision. -/
def before_route (q : Nat) (s : State) (h : s.front q < s.rear q) : State :=
  let p := s.head q h
  let s := s.advance q
  let e := exec_time (s.mem p) q
  let s := s.print (Event.running (s.mem p).pid q e)
  let s := s.store p (run_record (s.mem p) q s.current_time)
  { s with current_time := s.current_time + e }

/-- Body of `if (front[q] < rear[q])` in the scheduling loop: the run of the
head of queue `q`, then its routing. -/
def run_process (q : Nat) (s : State) (h : s.front q < s.rear q) : State :=
  route q (s.head q h) (before_route q s h)

/-- Scheduling loop `for (q = NUM_QUEUES - 1; q >= 0; q--)` with its `break`:
`schedule (q + 1)` inspects queue `q`, then the queues below. -/
def schedule : Nat → State → State
  | 0, s => s
  | q + 1, s => if h : s.front q < s.rear q then run_process q s h else schedule q s

/-- Statement `if (current_time % RESET_PERIOD == 0 && current_time > 0)`. -/
def reset_check (s : State) : State :=
  if s.current_time.tmod RESET_PERIOD = 0 ∧ s.current_time > 0 then
    priority_reset (s.print (Event.priorityReset s.current_time))
  else s

/-- One iteration of the main `while` loop of `simulate_mlfq`. -/
def iteration (num_processes : Nat) (s : State) : State :=
  let s := arrivals num_processes (num_processes - s.process_idx) s
  let s := display_queues s
  let s := schedule NUM_QUEUES s
  let s := reset_check s
  { s with current_time := s.current_time + 1 }

/-- Condition of the main `while` loop. -/
def loop_cond (num_processes : Nat) (s : State) : Bool :=
  decide (s.process_idx < num_processes) || !queues_empty s

/-- Main `while` loop of `simulate_mlfq`, stopped after at most `n` iterations:
the state after `n` iterations, or the final state when the loop ends earlier. -/
def iterations (num_processes : Nat) : Nat → State → State
  | 0, s => s
  | n + 1, s =>
    if loop_cond num_processes s then iterations num_processes n (iteration num_processes s)
    else s

/-- Function `simulate_mlfq` with at most `fuel` iterations of the main loop;
`none` when the loop has not stopped by then. -/
def simulate_mlfq (num_processes : Nat) (fuel : Nat) (s : State) : Option State :=
  let t := iterations num_processes fuel s
  if loop_cond num_processes t then none else some t

/-- Globals at program start (all zero), with the records `mem`, and
`process_idx = 0` as on entry to `simulate_mlfq`. -/
def initial (mem : Nat → Process) : State :=
  { mem := mem
    queues := fun _ => []
    front := fun _ => 0
    current_time := 0
    process_idx := 0
    freed := []
    out := [] }

/-- Record store holding the processes created from `(pid, arrival, burst)`
triples, one `create_process` call each, at addresses `0, 1, ...`. -/
def mem_of (l : List (Int × Int × Int)) : Nat → Process :=
  fun i => match l.get? i with
    | some (pid, a, b) => create_process pid a b
    | none => default

/-- Process list built by `main`. -/
def main_list : List (Int × Int × Int) := [(1, 0, 25), (2, 2, 30), (3, 5, 15)]

/-! ## Quantities used in the specification -/

/-- All front indices are at most the rear indices. -/
def State.WF (s : State) : Prop := ∀ q, s.front q ≤ s.rear q

/-- Number of places where address `p` is held: the waiting ranges of the
three queues and the freed list. -/
def State.occ (s : State) (p : Nat) : Nat :=
  (s.live 2).count p + (s.live 1).count p + (s.live 0).count p + s.freed.count p

/-- CPU time reported by one output line: the slice of a `Running` line. -/
def Event.exec : Event → Int
  | Event.running _ _ e => e
  | _ => 0

/-- Total CPU time delivered according to the output: the sum of the slices of
all `Running` lines. -/
def delivered (out : List Event) : Int := (out.map Event.exec).sum

/-- Sum of `remaining_time` over the records at addresses `0 .. n-1`. -/
def total_remaining (n : Nat) (mem : Nat → Process) : Int :=
  ((List.range n).map (fun i => (mem i).remaining_time)).sum

/-- Sum of `remaining_time` over the processes of the list that have not been
completed (freed), admitted or not. -/
def live_remaining (n : Nat) (s : State) : Int :=
  (((List.range n).filter (fun i => i ∉ s.freed)).map (fun i => (s.mem i).remaining_time)).sum

/-! ## Auxiliary definitions for the routing step -/

/-- Queue to which the routing appends `p`, if any. -/
def route_target (q : Nat) (r : Process) : Option Nat :=
  if r.remaining_time = 0 then none
  else if r.total_time_in_level ≥ time_allotment q then some (if q > 0 then q - 1 else 0)
  else some q

/-- Record at `p` after a demotion from queue `q`. -/
def demoted_record (q : Nat) (r : Process) : Process :=
  { r with current_queue_idx := if q > 0 then q - 1 else 0, total_time_in_level := 0 }

/-- Invariant of the main loop for a list of `n` processes whose burst times
sum to `B`: indices are ordered, every admitted address is held in exactly one
place (a waiting range or the freed list) and no other address is held, freed
records have no remaining time, and work is conserved. -/
structure Inv (n : Nat) (B : Int) (s : State) : Prop where
  wf : s.WF
  idx_le : s.process_idx ≤ n
  occ_eq : ∀ p, s.occ p = if p < s.process_idx then 1 else 0
  freed_done : ∀ p, p ∈ s.freed → (s.mem p).remaining_time = 0
  conserve : total_remaining n s.mem + delivered s.out = B

/-! ## Concrete inputs -/

/-- Well-formed process list: non-negative arrival and burst times, listed in
non-decreasing arrival order. -/
def well_formed (l : List (Int × Int × Int)) : Prop :=
  (∀ x ∈ l, 0 ≤ x.2.1 ∧ 0 ≤ x.2.2) ∧ l.Pairwise (fun x y => x.2.1 ≤ y.2.1)

instance well_formed_decidable (l : List (Int × Int × Int)) : Decidable (well_formed l) := by
  unfold well_formed; infer_instance

/-- A state with P1 waiting in queue 2 and P2 waiting in queue 1. -/
def sample_state : State :=
  (((initial (mem_of main_list)).enqueue 2 0).store 1
    { create_process 2 2 30 with current_queue_idx := 1 }).enqueue 1 1

/-- Two processes arriving at time 0 with bursts 16 and 27. -/
def two_list : List (Int × Int × Int) := [(1, 0, 16), (2, 0, 27)]

/-- State of the run on `two_list` in its ninth iteration, after the scheduling
step and before the reset check. -/
def before_reset : State :=
  let s := iterations 2 8 (initial (mem_of two_list))
  schedule NUM_QUEUES (display_queues (arrivals 2 (2 - s.process_idx) s))

/-- A state with P3 waiting in queue 2, P1 in queue 1 and P2 in queue 0. -/
def three_levels : State :=
  (((((initial (mem_of main_list)).enqueue 2 2).store 0
    { create_process 1 0 25 with current_queue_idx := 1 }).enqueue 1 0).store 1
    { create_process 2 2 30 with current_queue_idx := 0 }).enqueue 0 1

/-! ## Further concrete inputs -/

/-- One hundred processes (`MAX_PROCESSES` of them), all arriving at time 0
with burst 5. -/
def hundred_list : List (Int × Int × Int) :=
  (List.range 100).map (fun i => ((i : Int) + 1, 0, 5))

/-- A list that is not in arrival order: P1 arrives at 5, P2 at 0. -/
def unsorted_list : List (Int × Int × Int) := [(1, 5, 3), (2, 0, 3)]

/-- A list with one process of negative burst time. -/
def negative_list : List (Int × Int × Int) := [(1, 0, -5)]

/-- Times of the `Priority reset` lines of the output. -/
def reset_times : List Event → List Int
  | [] => []
  | Event.priorityReset t :: out => t :: reset_times out
  | _ :: out => reset_times out

/-- Body of the arrival loop: the process at `process_idx` is admitted. -/
def arrive (s : State) : State :=
  (State.print { s with process_idx := s.process_idx + 1 }
    (Event.arrives (s.mem s.process_idx).pid s.current_time)).enqueue 2 s.process_idx

/-- Pid and clock value of an `arrives` line. -/
def Event.arrival : Event → Option (Int × Int)
  | Event.arrives pid t => some (pid, t)
  | _ => none

/-- The `arrives` lines of the output, in order: pid and clock value. -/
def arrival_log (out : List Event) : List (Int × Int) := out.filterMap Event.arrival

/-- Second part of the loop invariant, for a list of `n` processes whose
records are initially `m0`: pids and arrival times never change, remaining
times and times in level are non-negative when the initial remaining times
are, every waiting process waits in the
queue named by its `current_queue_idx`, records not yet admitted still have
`current_queue_idx = 2`, the `arrives` lines are those of processes
`0 .. process_idx - 1` in this order, each printed at a clock value at or after
the arrival time, and every admitted address has been written to a slot of
queue 2. -/
structure Inv2 (n : Nat) (m0 : Nat → Process) (s : State) : Prop where
  pid_eq : ∀ i, (s.mem i).pid = (m0 i).pid
  arrival_eq : ∀ i, (s.mem i).arrival_time = (m0 i).arrival_time
  nonneg : (∀ i, 0 ≤ (m0 i).remaining_time) →
    ∀ i, 0 ≤ (s.mem i).remaining_time ∧ 0 ≤ (s.mem i).total_time_in_level
  level : ∀ q, q < NUM_QUEUES → ∀ p, p ∈ s.live q → (s.mem p).current_queue_idx = q
  fresh : ∀ i, s.process_idx ≤ i → i < n → (s.mem i).current_queue_idx = 2
  arrived : List.Forall₂ (fun ev i => ev.1 = (m0 i).pid ∧ (m0 i).arrival_time ≤ ev.2)
    (arrival_log s.out) (List.range s.process_idx)
  slots : ∀ i, i < s.process_idx → i ∈ s.queues 2

/-! ## Termination measure -/

/-- Number of processes still to be completed: not yet admitted, or waiting
in one of the three queues. -/
def waiting (n : Nat) (s : State) : Nat :=
  (n - s.process_idx) + (s.live 2).length + (s.live 1).length + (s.live 0).length

/-- Sum over the records `0 .. n-1` of `remaining_time + total_time_in_level`.
A run leaves it unchanged; a demotion lowers it by the time spent in the level. -/
def potential (n : Nat) (mem : Nat → Process) : Int :=
  ((List.range n).map (fun i => (mem i).remaining_time + (mem i).total_time_in_level)).sum

/-- Clock ticks left until the next process of the list arrives. -/
def idle_distance (s : State) : Int := (s.mem s.process_idx).arrival_time - s.current_time

/-- Termination measure of the main loop, ordered lexicographically. -/
def loop_measure (n : Nat) (s : State) : Nat × Nat × Nat × Nat :=
  (waiting n s, (potential n s.mem).toNat, (total_remaining n s.mem).toNat,
    (idle_distance s).toNat)

/-- Lexicographic order on the termination measure. -/
def measure_lt : Nat × Nat × Nat × Nat → Nat × Nat × Nat × Nat → Prop :=
  Prod.Lex (fun a b => a < b) (Prod.Lex (fun a b => a < b)
    (Prod.Lex (fun a b => a < b) (fun a b => a < b)))


/-! ## Elementary facts about the queue operations -/

theorem live_eq_nil_iff (s : State) (q : Nat) : s.live q = [] ↔ ¬ s.front q < s.rear q := by
  simp [State.live, State.rear, List.drop_eq_nil_iff]

theorem live_eq_head_cons (s : State) (q : Nat) (h : s.front q < s.rear q) :
    s.live q = s.head q h :: (s.advance q).live q := by
  simp only [State.live, State.head, State.advance, Function.update_same]
  exact List.drop_eq_getElem_cons h

theorem live_advance (s : State) (q q' : Nat) :
    (s.advance q).live q' = if q' = q then (s.live q).tail else s.live q' := by
  by_cases hq : q' = q
  · subst hq
    simp [State.live, State.advance, List.tail_drop]
  · simp [State.live, State.advance, Function.update_noteq hq, hq]

theorem live_enqueue (s : State) (q p q' : Nat) (hf : s.front q ≤ s.rear q) :
    (s.enqueue q p).live q' = if q' = q then s.live q ++ [p] else s.live q' := by
  by_cases hq : q' = q
  · subst hq
    simp only [State.live, State.enqueue, Function.update_same, if_true]
    exact List.drop_append_of_le_length hf
  · simp [State.live, State.enqueue, Function.update_noteq hq, hq]

@[simp] theorem live_store (s : State) (p : Nat) (r : Process) (q : Nat) :
    (s.store p r).live q = s.live q := rfl

@[simp] theorem live_print (s : State) (e : Event) (q : Nat) : (s.print e).live q = s.live q := rfl

@[simp] theorem front_store (s : State) (p : Nat) (r : Process) : (s.store p r).front = s.front := rfl

@[simp] theorem front_print (s : State) (e : Event) : (s.print e).front = s.front := rfl

@[simp] theorem front_enqueue (s : State) (q p : Nat) : (s.enqueue q p).front = s.front := rfl

@[simp] theorem rear_store (s : State) (p : Nat) (r : Process) (q : Nat) :
    (s.store p r).rear q = s.rear q := rfl

@[simp] theorem rear_print (s : State) (e : Event) (q : Nat) : (s.print e).rear q = s.rear q := rfl

@[simp] theorem rear_advance (s : State) (q q' : Nat) : (s.advance q).rear q' = s.rear q' := rfl

theorem rear_enqueue (s : State) (q p q' : Nat) :
    (s.enqueue q p).rear q' = if q' = q then s.rear q + 1 else s.rear q' := by
  by_cases hq : q' = q
  · subst hq; simp [State.rear, State.enqueue]
  · simp [State.rear, State.enqueue, Function.update_noteq hq, hq]

theorem front_advance (s : State) (q q' : Nat) :
    (s.advance q).front q' = if q' = q then s.front q + 1 else s.front q' := by
  by_cases hq : q' = q
  · subst hq; simp [State.advance]
  · simp [State.advance, Function.update_noteq hq, hq]

@[simp] theorem mem_advance (s : State) (q : Nat) : (s.advance q).mem = s.mem := rfl

@[simp] theorem mem_enqueue (s : State) (q p : Nat) : (s.enqueue q p).mem = s.mem := rfl

@[simp] theorem mem_print (s : State) (e : Event) : (s.print e).mem = s.mem := rfl

@[simp] theorem mem_store (s : State) (p : Nat) (r : Process) :
    (s.store p r).mem = Function.update s.mem p r := rfl

/-! ## Routing and running: effect on the state -/

theorem WF_advance (s : State) (q : Nat) (hw : s.WF) (h : s.front q < s.rear q) :
    (s.advance q).WF := by
  intro q'
  rw [front_advance, rear_advance]
  split
  · subst_vars; exact h
  · exact hw q'

theorem WF_enqueue (s : State) (q p : Nat) (hw : s.WF) : (s.enqueue q p).WF := by
  intro q'
  rw [front_enqueue, rear_enqueue]
  have := hw q'
  split
  · subst_vars; omega
  · exact this

theorem WF_store (s : State) (p : Nat) (r : Process) (hw : s.WF) : (s.store p r).WF := hw

theorem WF_print (s : State) (e : Event) (hw : s.WF) : (s.print e).WF := hw

theorem route_completed (q p : Nat) (s : State) (h1 : (s.mem p).remaining_time = 0) :
    route q p s =
      { s.print (Event.completed (s.mem p).pid s.current_time) with freed := s.freed ++ [p] } := by
  rw [route, if_pos h1]; rfl

theorem route_demoted (q p : Nat) (s : State) (h1 : ¬ (s.mem p).remaining_time = 0)
    (h2 : (s.mem p).total_time_in_level ≥ time_allotment q) :
    route q p s =
      (((s.store p (demoted_record q (s.mem p))).enqueue (if q > 0 then q - 1 else 0) p).print
        (Event.demoted (s.mem p).pid (if q > 0 then q - 1 else 0))) := by
  rw [route, if_neg h1, if_pos h2]
  simp [State.store, State.enqueue, State.print, demoted_record]

theorem route_requeued (q p : Nat) (s : State) (h1 : ¬ (s.mem p).remaining_time = 0)
    (h2 : ¬ (s.mem p).total_time_in_level ≥ time_allotment q) :
    route q p s = s.enqueue q p := by
  rw [route, if_neg h1, if_neg h2]

theorem route_live (q p : Nat) (s : State) (hw : s.WF) (q' : Nat) :
    (route q p s).live q' =
      s.live q' ++ (if route_target q (s.mem p) = some q' then [p] else []) := by
  unfold route_target
  by_cases h1 : (s.mem p).remaining_time = 0
  · rw [route_completed q p s h1, if_pos h1]
    simp [State.live, State.print]
  · by_cases h2 : (s.mem p).total_time_in_level ≥ time_allotment q
    · rw [route_demoted q p s h1 h2, live_print,
        live_enqueue _ _ _ _ (WF_store _ _ _ hw _), live_store]
      simp only [h1, h2, if_true, if_false, Option.some.injEq]
      generalize (if q > 0 then q - 1 else 0) = d
      by_cases h3 : q' = d
      · subst h3; simp
      · simp [h3, Ne.symm h3]
    · rw [route_requeued q p s h1 h2, live_enqueue _ _ _ _ (hw _)]
      simp only [h1, h2, if_true, if_false, Option.some.injEq]
      by_cases h3 : q' = q
      · subst h3; simp
      · simp [h3, Ne.symm h3]

theorem route_freed (q p : Nat) (s : State) :
    (route q p s).freed = s.freed ++ (if (s.mem p).remaining_time = 0 then [p] else []) := by
  by_cases h1 : (s.mem p).remaining_time = 0
  · rw [route_completed q p s h1, if_pos h1]
  · by_cases h2 : (s.mem p).total_time_in_level ≥ time_allotment q
    · rw [route_demoted q p s h1 h2, if_neg h1]; simp [State.print, State.enqueue, State.store]
    · rw [route_requeued q p s h1 h2, if_neg h1]; simp [State.enqueue]

theorem route_WF (q p : Nat) (s : State) (hw : s.WF) : (route q p s).WF := by
  by_cases h1 : (s.mem p).remaining_time = 0
  · rw [route_completed q p s h1]; exact hw
  · by_cases h2 : (s.mem p).total_time_in_level ≥ time_allotment q
    · rw [route_demoted q p s h1 h2]
      exact WF_print _ _ (WF_enqueue _ _ _ (WF_store _ _ _ hw))
    · rw [route_requeued q p s h1 h2]; exact WF_enqueue _ _ _ hw

theorem route_mem (q p : Nat) (s : State) :
    (route q p s).mem =
      if (s.mem p).remaining_time ≠ 0 ∧ (s.mem p).total_time_in_level ≥ time_allotment q then
        Function.update s.mem p (demoted_record q (s.mem p))
      else s.mem := by
  by_cases h1 : (s.mem p).remaining_time = 0
  · rw [route_completed q p s h1, if_neg (fun h => h.1 h1)]; rfl
  · by_cases h2 : (s.mem p).total_time_in_level ≥ time_allotment q
    · have hc : (s.mem p).remaining_time ≠ 0 ∧ (s.mem p).total_time_in_level ≥ time_allotment q :=
        ⟨h1, h2⟩
      rw [if_pos hc, route_demoted q p s h1 h2]; rfl
    · rw [route_requeued q p s h1 h2, if_neg (fun h => h2 h.2)]; rfl

theorem route_remaining (q p : Nat) (s : State) (p' : Nat) :
    ((route q p s).mem p').remaining_time = (s.mem p').remaining_time := by
  rw [route_mem]
  split
  · by_cases hp : p' = p
    · subst hp; simp [demoted_record]
    · simp [Function.update_noteq hp]
  · rfl

theorem route_mem_other (q p : Nat) (s : State) (p' : Nat) (hp : p' ≠ p) :
    (route q p s).mem p' = s.mem p' := by
  rw [route_mem]
  split
  · exact Function.update_noteq hp _ _
  · rfl

theorem route_delivered (q p : Nat) (s : State) :
    delivered (route q p s).out = delivered s.out := by
  by_cases h1 : (s.mem p).remaining_time = 0
  · rw [route_completed q p s h1]; simp [delivered, State.print, Event.exec]
  · by_cases h2 : (s.mem p).total_time_in_level ≥ time_allotment q
    · rw [route_demoted q p s h1 h2]
      simp [delivered, State.print, State.enqueue, State.store, Event.exec]
    · rw [route_requeued q p s h1 h2]; rfl

theorem route_process_idx (q p : Nat) (s : State) :
    (route q p s).process_idx = s.process_idx := by
  by_cases h1 : (s.mem p).remaining_time = 0
  · rw [route_completed q p s h1]; rfl
  · by_cases h2 : (s.mem p).total_time_in_level ≥ time_allotment q
    · rw [route_demoted q p s h1 h2]; rfl
    · rw [route_requeued q p s h1 h2]; rfl

theorem route_current_time (q p : Nat) (s : State) :
    (route q p s).current_time = s.current_time := by
  by_cases h1 : (s.mem p).remaining_time = 0
  · rw [route_completed q p s h1]; rfl
  · by_cases h2 : (s.mem p).total_time_in_level ≥ time_allotment q
    · rw [route_demoted q p s h1 h2]; rfl
    · rw [route_requeued q p s h1 h2]; rfl

theorem run_process_eq (q : Nat) (s : State) (h : s.front q < s.rear q) :
    run_process q s h = route q (s.head q h) (before_route q s h) := rfl

theorem before_route_mem_head (q : Nat) (s : State) (h : s.front q < s.rear q) :
    (before_route q s h).mem (s.head q h) = run_record (s.mem (s.head q h)) q s.current_time := by
  simp [before_route, State.store, State.print, State.advance]

theorem before_route_WF (q : Nat) (s : State) (h : s.front q < s.rear q) (hw : s.WF) :
    (before_route q s h).WF := WF_advance s q hw h

theorem before_route_live (q : Nat) (s : State) (h : s.front q < s.rear q) (q' : Nat) :
    (before_route q s h).live q' = if q' = q then (s.live q).tail else s.live q' :=
  live_advance s q q'

theorem run_process_WF (q : Nat) (s : State) (h : s.front q < s.rear q) (hw : s.WF) :
    (run_process q s h).WF :=
  route_WF _ _ _ (before_route_WF q s h hw)

theorem run_process_live (q : Nat) (s : State) (h : s.front q < s.rear q) (hw : s.WF) (q' : Nat) :
    (run_process q s h).live q' =
      (if q' = q then (s.live q).tail else s.live q') ++
        (if route_target q (run_record (s.mem (s.head q h)) q s.current_time) = some q'
          then [s.head q h] else []) := by
  rw [run_process_eq, route_live _ _ _ (before_route_WF q s h hw), before_route_live,
    before_route_mem_head]

theorem run_process_freed (q : Nat) (s : State) (h : s.front q < s.rear q) :
    (run_process q s h).freed =
      s.freed ++ (if (run_record (s.mem (s.head q h)) q s.current_time).remaining_time = 0
        then [s.head q h] else []) := by
  rw [run_process_eq, route_freed, before_route_mem_head]; rfl

theorem run_process_remaining (q : Nat) (s : State) (h : s.front q < s.rear q) (p' : Nat) :
    ((run_process q s h).mem p').remaining_time =
      if p' = s.head q h then
        (s.mem p').remaining_time - exec_time (s.mem (s.head q h)) q
      else (s.mem p').remaining_time := by
  rw [run_process_eq, route_remaining]
  by_cases hp : p' = s.head q h
  · rw [if_pos hp, hp, before_route_mem_head]; rfl
  · rw [if_neg hp]
    simp [before_route, State.store, State.print, State.advance, Function.update_noteq hp]

theorem run_process_mem_other (q : Nat) (s : State) (h : s.front q < s.rear q) (p' : Nat)
    (hp : p' ≠ s.head q h) : (run_process q s h).mem p' = s.mem p' := by
  rw [run_process_eq, route_mem_other _ _ _ _ hp]
  simp [before_route, State.store, State.print, State.advance, Function.update_noteq hp]

theorem run_process_delivered (q : Nat) (s : State) (h : s.front q < s.rear q) :
    delivered (run_process q s h).out =
      delivered s.out + exec_time (s.mem (s.head q h)) q := by
  rw [run_process_eq, route_delivered]
  simp [before_route, State.store, State.print, State.advance, delivered, Event.exec]

theorem run_process_process_idx (q : Nat) (s : State) (h : s.front q < s.rear q) :
    (run_process q s h).process_idx = s.process_idx := by
  rw [run_process_eq, route_process_idx]; rfl

theorem run_process_current_time (q : Nat) (s : State) (h : s.front q < s.rear q) :
    (run_process q s h).current_time = s.current_time + exec_time (s.mem (s.head q h)) q := by
  rw [run_process_eq, route_current_time]; rfl

theorem route_target_cases (q : Nat) (r : Process) (hq : q < NUM_QUEUES) :
    (route_target q r = none ∧ r.remaining_time = 0) ∨
      (∃ d, d < NUM_QUEUES ∧ route_target q r = some d ∧ r.remaining_time ≠ 0) := by
  unfold route_target
  by_cases h1 : r.remaining_time = 0
  · left; simp [h1]
  · right
    by_cases h2 : r.total_time_in_level ≥ time_allotment q
    · refine ⟨if q > 0 then q - 1 else 0, ?_, by simp [h1, h2], h1⟩
      unfold NUM_QUEUES at *
      split <;> omega
    · exact ⟨q, hq, by simp [h1, h2], h1⟩

theorem run_process_occ (q : Nat) (s : State) (h : s.front q < s.rear q) (hw : s.WF)
    (hq : q < NUM_QUEUES) (p' : Nat) : (run_process q s h).occ p' = s.occ p' := by
  have hl := live_eq_head_cons s q h
  have ht : (s.live q).tail = (s.advance q).live q := by rw [hl]; rfl
  unfold State.occ
  rw [run_process_live q s h hw, run_process_live q s h hw, run_process_live q s h hw,
    run_process_freed]
  rcases route_target_cases q (run_record (s.mem (s.head q h)) q s.current_time) hq with
    ⟨h1, h2⟩ | ⟨d, hd, h1, h2⟩
  · rw [h1, if_pos h2]
    unfold NUM_QUEUES at hq
    have hq3 : q = 0 ∨ q = 1 ∨ q = 2 := by omega
    rcases hq3 with rfl | rfl | rfl <;>
      simp only [ht, List.count_append, List.count_cons, List.count_nil] <;>
      rw [hl] <;> simp [List.count_cons] <;> omega
  · rw [h1, if_neg h2]
    unfold NUM_QUEUES at hq hd
    have hq3 : q = 0 ∨ q = 1 ∨ q = 2 := by omega
    have hd3 : d = 0 ∨ d = 1 ∨ d = 2 := by omega
    rcases hq3 with rfl | rfl | rfl <;> rcases hd3 with rfl | rfl | rfl <;>
      simp only [ht, List.count_append, List.count_cons, List.count_nil] <;>
      rw [hl] <;> simp [List.count_cons] <;> omega

/-! ## Priority reset: effect on the state -/

theorem reset_move_front (q : Nat) (s : State) (h : s.front q < s.rear q) (q' : Nat) :
    (reset_move q s h).front q' = if q' = q then s.front q + 1 else s.front q' :=
  front_advance s q q'

theorem reset_move_rear (q : Nat) (s : State) (h : s.front q < s.rear q) (q' : Nat) :
    (reset_move q s h).rear q' = if q' = 2 then s.rear 2 + 1 else s.rear q' := by
  unfold reset_move
  simp only [rear_print, rear_enqueue, rear_store, rear_advance]

theorem reset_move_live (q : Nat) (s : State) (h : s.front q < s.rear q)
    (h2 : s.front 2 ≤ s.rear 2) (q' : Nat) :
    (reset_move q s h).live q' =
      (if q' = q then (s.live q).tail else s.live q') ++ (if q' = 2 then [s.head q h] else []) := by
  unfold reset_move
  simp only [live_print]
  rw [live_enqueue]
  · simp only [live_store, live_advance]
    by_cases hq : q' = 2
    · subst hq; simp
    · simp [hq]
  · simp only [front_store, rear_store, rear_advance, front_advance]
    split
    · subst_vars; exact h
    · exact h2

theorem reset_move_mem (q : Nat) (s : State) (h : s.front q < s.rear q) :
    (reset_move q s h).mem =
      Function.update s.mem (s.head q h) { s.mem (s.head q h) with current_queue_idx := 2 } := rfl

theorem reset_move_remaining (q : Nat) (s : State) (h : s.front q < s.rear q) (p' : Nat) :
    ((reset_move q s h).mem p').remaining_time = (s.mem p').remaining_time := by
  rw [reset_move_mem]
  by_cases hp : p' = s.head q h
  · subst hp; simp
  · simp [Function.update_noteq hp]

theorem reset_move_total (q : Nat) (s : State) (h : s.front q < s.rear q) (p' : Nat) :
    ((reset_move q s h).mem p').total_time_in_level = (s.mem p').total_time_in_level := by
  rw [reset_move_mem]
  by_cases hp : p' = s.head q h
  · subst hp; simp
  · simp [Function.update_noteq hp]

theorem reset_move_freed (q : Nat) (s : State) (h : s.front q < s.rear q) :
    (reset_move q s h).freed = s.freed := rfl

theorem reset_move_process_idx (q : Nat) (s : State) (h : s.front q < s.rear q) :
    (reset_move q s h).process_idx = s.process_idx := rfl

theorem reset_move_current_time (q : Nat) (s : State) (h : s.front q < s.rear q) :
    (reset_move q s h).current_time = s.current_time := rfl

theorem reset_move_delivered (q : Nat) (s : State) (h : s.front q < s.rear q) :
    delivered (reset_move q s h).out = delivered s.out := by
  simp [reset_move, delivered, State.print, State.enqueue, State.store, State.advance, Event.exec]

theorem reset_move_WF (q : Nat) (s : State) (h : s.front q < s.rear q) (hw : s.WF) :
    (reset_move q s h).WF := by
  intro q'
  rw [reset_move_front, reset_move_rear]
  have := hw q'
  split <;> split <;> subst_vars <;> omega

theorem reset_queue_of_empty (q k : Nat) (s : State) (h : ¬ s.front q < s.rear q) :
    reset_queue q k s = s := by
  cases k with
  | zero => rfl
  | succ k => rw [reset_queue, dif_neg h]

theorem reset_queue_front_other (q : Nat) (q' : Nat) (hq : q' ≠ q) :
    ∀ (k : Nat) (s : State), (reset_queue q k s).front q' = s.front q' := by
  intro k
  induction k with
  | zero => intro s; rfl
  | succ k ih =>
    intro s
    rw [reset_queue]
    split
    · rw [ih, reset_move_front, if_neg hq]
    · rfl

theorem reset_queue_rear_other (q : Nat) (q' : Nat) (hq : q' ≠ 2) :
    ∀ (k : Nat) (s : State), (reset_queue q k s).rear q' = s.rear q' := by
  intro k
  induction k with
  | zero => intro s; rfl
  | succ k ih =>
    intro s
    rw [reset_queue]
    split
    · rw [ih, reset_move_rear, if_neg hq]
    · rfl

theorem reset_queue_drained (q : Nat) (hq : q ≠ 2) :
    ∀ (k : Nat) (s : State), s.rear q - s.front q ≤ k →
      ¬ (reset_queue q k s).front q < (reset_queue q k s).rear q := by
  intro k
  induction k with
  | zero => intro s hk; simp only [reset_queue]; omega
  | succ k ih =>
    intro s hk
    rw [reset_queue]
    split
    · rename_i h
      apply ih
      rw [reset_move_front, reset_move_rear, if_pos rfl, if_neg hq]
      omega
    · assumption

theorem reset_queue_live (q : Nat) (hq : q ≠ 2) :
    ∀ (k : Nat) (s : State), s.front 2 ≤ s.rear 2 → s.rear q - s.front q ≤ k →
      ∀ q', (reset_queue q k s).live q' =
        if q' = 2 then s.live 2 ++ s.live q else if q' = q then [] else s.live q' := by
  intro k
  induction k with
  | zero =>
    intro s _ hk q'
    have hn : ¬ s.front q < s.rear q := by omega
    have hl := (live_eq_nil_iff s q).2 hn
    simp only [reset_queue, hl, List.append_nil]
    split
    · subst_vars; rfl
    · split
      · subst_vars; exact hl
      · rfl
  | succ k ih =>
    intro s h2 hk q'
    rw [reset_queue]
    split
    · rename_i h
      have h2' : (reset_move q s h).front 2 ≤ (reset_move q s h).rear 2 := by
        rw [reset_move_front, reset_move_rear, if_neg (Ne.symm hq), if_pos rfl]; omega
      have hk' : (reset_move q s h).rear q - (reset_move q s h).front q ≤ k := by
        rw [reset_move_front, reset_move_rear, if_pos rfl, if_neg hq]; omega
      rw [ih _ h2' hk', reset_move_live q s h h2, reset_move_live q s h h2]
      have hl := live_eq_head_cons s q h
      have ht : (s.live q).tail = (s.advance q).live q := by rw [hl]; rfl
      by_cases h3 : q' = 2
      · simp only [h3, if_true, if_neg (Ne.symm hq), if_pos rfl]
        rw [hl, ← ht, List.tail_cons]; simp [hq]
      · simp only [h3, if_false]
        by_cases h4 : q' = q
        · simp [h4]
        · simp only [h4, if_false]
          rw [reset_move_live q s h h2, if_neg h4, if_neg h3, List.append_nil]
    · rename_i h
      have hl := (live_eq_nil_iff s q).2 h
      simp only [hl, List.append_nil]
      split
      · subst_vars; rfl
      · split
        · subst_vars; exact hl
        · rfl

theorem priority_reset_live (s : State) (h2 : s.front 2 ≤ s.rear 2) (q' : Nat) :
    (priority_reset s).live q' =
      if q' = 2 then s.live 2 ++ s.live 1 ++ s.live 0
      else if q' = 1 then [] else if q' = 0 then [] else s.live q' := by
  unfold priority_reset
  simp only []
  have a := reset_queue_live 1 (by decide) (s.rear 1 - s.front 1) s h2 (le_refl _)
  have h2' : (reset_queue 1 (s.rear 1 - s.front 1) s).front 2 ≤
      (reset_queue 1 (s.rear 1 - s.front 1) s).rear 2 := by
    have h1 := (a 2)
    simp only [if_true] at h1
    by_contra hc
    have : (reset_queue 1 (s.rear 1 - s.front 1) s).live 2 = [] :=
      (live_eq_nil_iff _ _).2 (by omega)
    rw [this] at h1
    have h3 : s.live 2 = [] := (List.append_eq_nil.1 h1.symm).1
    have h4 : s.live 1 = [] := (List.append_eq_nil.1 h1.symm).2
    have h5 := reset_queue_of_empty 1 (s.rear 1 - s.front 1) s ((live_eq_nil_iff s 1).1 h4)
    rw [h5] at hc
    exact hc h2
  rw [reset_queue_live 0 (by decide) _ _ h2' (le_refl _), a 2, a 0, a q']
  by_cases h3 : q' = 2
  · simp [h3]
  · by_cases h4 : q' = 1
    · simp [h4]
    · by_cases h5 : q' = 0
      · simp [h5]
      · simp [h3, h4, h5]

/-! ## The loop invariant -/

theorem total_remaining_congr (n : Nat) (m m' : Nat → Process)
    (h : ∀ i, (m' i).remaining_time = (m i).remaining_time) :
    total_remaining n m' = total_remaining n m := by
  unfold total_remaining
  congr 1
  exact List.map_congr_left (fun i _ => h i)

theorem total_remaining_sub (n : Nat) (m m' : Nat → Process) (p : Nat) (e : Int) (hp : p < n)
    (h : ∀ i, (m' i).remaining_time =
      if i = p then (m i).remaining_time - e else (m i).remaining_time) :
    total_remaining n m' = total_remaining n m - e := by
  induction n with
  | zero => omega
  | succ n ih =>
    unfold total_remaining at *
    rw [List.range_succ, List.map_append, List.map_append, List.sum_append, List.sum_append]
    simp only [List.map_cons, List.map_nil, List.sum_cons, List.sum_nil, add_zero]
    by_cases hpn : p = n
    · have hc : ((List.range n).map (fun i => (m' i).remaining_time)) =
          ((List.range n).map (fun i => (m i).remaining_time)) := by
        apply List.map_congr_left
        intro i hi
        have : i ≠ p := by
          have := List.mem_range.1 hi
          omega
        simp only [h i, if_neg this]
      rw [hc, h n, if_pos hpn.symm]
      ring
    · rw [ih (by omega), h n, if_neg (Ne.symm hpn)]
      ring

theorem live_remaining_eq (n : Nat) (s : State)
    (h : ∀ p, p ∈ s.freed → (s.mem p).remaining_time = 0) :
    live_remaining n s = total_remaining n s.mem := by
  unfold live_remaining total_remaining
  generalize List.range n = l
  induction l with
  | nil => rfl
  | cons a l ih =>
    by_cases ha : a ∈ s.freed
    · simp [List.filter_cons, ha, h a ha]
      simpa using ih
    · simp [List.filter_cons, ha]
      simpa using ih

theorem head_mem_live (q : Nat) (s : State) (h : s.front q < s.rear q) :
    s.head q h ∈ s.live q := by
  rw [live_eq_head_cons s q h]; exact List.mem_cons_self _ _

theorem occ_pos_of_mem_live (s : State) (q p : Nat) (hq : q < NUM_QUEUES) (hp : p ∈ s.live q) :
    1 ≤ s.occ p ∧ (s.occ p ≤ 1 → p ∉ s.freed) := by
  have hc : 1 ≤ (s.live q).count p := List.count_pos_iff.2 hp
  unfold NUM_QUEUES at hq
  have hq3 : q = 0 ∨ q = 1 ∨ q = 2 := by omega
  unfold State.occ
  refine ⟨?_, ?_⟩
  · rcases hq3 with rfl | rfl | rfl <;> omega
  · intro h1 hf
    have : 1 ≤ s.freed.count p := List.count_pos_iff.2 hf
    rcases hq3 with rfl | rfl | rfl <;> omega

theorem Inv.head_lt {n : Nat} {B : Int} {s : State} (hi : Inv n B s) (q : Nat)
    (hq : q < NUM_QUEUES) (h : s.front q < s.rear q) :
    s.head q h < s.process_idx ∧ s.head q h ∉ s.freed := by
  have h1 := occ_pos_of_mem_live s q _ hq (head_mem_live q s h)
  have h2 := hi.occ_eq (s.head q h)
  constructor
  · by_contra hc
    rw [if_neg hc] at h2
    omega
  · apply h1.2
    rw [h2]; split <;> omega

theorem Inv_run_process {n : Nat} {B : Int} {s : State} (hi : Inv n B s) (q : Nat)
    (hq : q < NUM_QUEUES) (h : s.front q < s.rear q) : Inv n B (run_process q s h) := by
  have hh := hi.head_lt q hq h
  refine ⟨run_process_WF q s h hi.wf, ?_, ?_, ?_, ?_⟩
  · rw [run_process_process_idx]; exact hi.idx_le
  · intro p
    rw [run_process_occ q s h hi.wf hq, run_process_process_idx]
    exact hi.occ_eq p
  · intro p hp
    rw [run_process_freed, List.mem_append] at hp
    rw [run_process_remaining]
    rcases hp with hp | hp
    · have hne : p ≠ s.head q h := fun hc => hh.2 (hc ▸ hp)
      rw [if_neg hne]
      exact hi.freed_done p hp
    · split at hp
      · rename_i h0
        have : p = s.head q h := by simpa using hp
        rw [if_pos this, this]
        exact h0
      · simp at hp
  · rw [run_process_delivered,
      total_remaining_sub n s.mem _ (s.head q h) (exec_time (s.mem (s.head q h)) q)
        (lt_of_lt_of_le hh.1 hi.idx_le)]
    · have := hi.conserve
      omega
    · intro i
      rw [run_process_remaining]

theorem schedule_cases (k : Nat) (s : State) :
    (schedule k s = s ∧ ∀ q, q < k → ¬ s.front q < s.rear q) ∨
      (∃ (q : Nat) (h : s.front q < s.rear q), q < k ∧
        (∀ q', q < q' → q' < k → ¬ s.front q' < s.rear q') ∧ schedule k s = run_process q s h) := by
  induction k with
  | zero => left; exact ⟨rfl, fun q hq => absurd hq (Nat.not_lt_zero q)⟩
  | succ k ih =>
    by_cases h : s.front k < s.rear k
    · right
      refine ⟨k, h, Nat.lt_succ_self k, fun q' h1 h2 => by omega, ?_⟩
      rw [schedule, dif_pos h]
    · rcases ih with ⟨h1, h2⟩ | ⟨q, hq, h1, h2, h3⟩
      · left
        refine ⟨by rw [schedule, dif_neg h]; exact h1, fun q hq => ?_⟩
        by_cases hqk : q = k
        · rw [hqk]; exact h
        · exact h2 q (by omega)
      · right
        refine ⟨q, hq, by omega, fun q' h4 h5 => ?_, by rw [schedule, dif_neg h]; exact h3⟩
        by_cases hqk : q' = k
        · rw [hqk]; exact h
        · exact h2 q' h4 (by omega)

theorem Inv_schedule {n : Nat} {B : Int} {s : State} (hi : Inv n B s) :
    Inv n B (schedule NUM_QUEUES s) := by
  rcases schedule_cases NUM_QUEUES s with ⟨h1, _⟩ | ⟨q, h, hq, _, h3⟩
  · rw [h1]; exact hi
  · rw [h3]; exact Inv_run_process hi q hq h

theorem reset_move_occ (q : Nat) (s : State) (h : s.front q < s.rear q) (hw : s.WF)
    (hq : q < NUM_QUEUES) (p' : Nat) : (reset_move q s h).occ p' = s.occ p' := by
  have hl := live_eq_head_cons s q h
  have ht : (s.live q).tail = (s.advance q).live q := by rw [hl]; rfl
  unfold State.occ
  rw [reset_move_live q s h (hw 2), reset_move_live q s h (hw 2), reset_move_live q s h (hw 2),
    reset_move_freed]
  unfold NUM_QUEUES at hq
  have hq3 : q = 0 ∨ q = 1 ∨ q = 2 := by omega
  rcases hq3 with rfl | rfl | rfl <;>
    simp only [ht, List.count_append, List.count_cons, List.count_nil] <;>
    rw [hl] <;> simp [List.count_cons] <;> omega

theorem Inv_reset_move {n : Nat} {B : Int} {s : State} (hi : Inv n B s) (q : Nat)
    (hq : q < NUM_QUEUES) (h : s.front q < s.rear q) : Inv n B (reset_move q s h) := by
  refine ⟨reset_move_WF q s h hi.wf, hi.idx_le, ?_, ?_, ?_⟩
  · intro p
    rw [reset_move_occ q s h hi.wf hq, reset_move_process_idx]
    exact hi.occ_eq p
  · intro p hp
    rw [reset_move_remaining]
    exact hi.freed_done p hp
  · rw [reset_move_delivered, total_remaining_congr n s.mem _ (reset_move_remaining q s h)]
    exact hi.conserve

theorem Inv_reset_queue {n : Nat} {B : Int} (q : Nat) (hq : q < NUM_QUEUES) :
    ∀ (k : Nat) (s : State), Inv n B s → Inv n B (reset_queue q k s) := by
  intro k
  induction k with
  | zero => intro s hi; exact hi
  | succ k ih =>
    intro s hi
    rw [reset_queue]
    split
    · exact ih _ (Inv_reset_move hi q hq _)
    · exact hi

theorem Inv_priority_reset {n : Nat} {B : Int} {s : State} (hi : Inv n B s) :
    Inv n B (priority_reset s) :=
  Inv_reset_queue 0 (by decide) _ _ (Inv_reset_queue 1 (by decide) _ _ hi)

theorem Inv_print {n : Nat} {B : Int} {s : State} (hi : Inv n B s) (e : Event)
    (he : e.exec = 0) : Inv n B (s.print e) := by
  refine ⟨hi.wf, hi.idx_le, hi.occ_eq, hi.freed_done, ?_⟩
  have := hi.conserve
  simp only [State.print, delivered, List.map_append, List.sum_append, List.map_cons,
    List.map_nil, List.sum_cons, List.sum_nil, he] at *
  omega

theorem Inv_reset_check {n : Nat} {B : Int} {s : State} (hi : Inv n B s) :
    Inv n B (reset_check s) := by
  unfold reset_check
  split
  · exact Inv_priority_reset (Inv_print hi _ rfl)
  · exact hi

theorem Inv_arrive {n : Nat} {B : Int} {s : State} (hi : Inv n B s)
    (h : s.process_idx < n) (e : Event) (he : e.exec = 0) :
    Inv n B ((State.print { s with process_idx := s.process_idx + 1 } e).enqueue 2
      s.process_idx) := by
  refine ⟨WF_enqueue _ _ _ hi.wf, h, ?_, hi.freed_done, ?_⟩
  · intro p
    have h0 := hi.occ_eq p
    unfold State.occ at *
    have hw : (State.print { s with process_idx := s.process_idx + 1 } e).front 2 ≤
        (State.print { s with process_idx := s.process_idx + 1 } e).rear 2 := hi.wf 2
    rw [live_enqueue _ 2 _ 2 hw, live_enqueue _ 2 _ 1 hw, live_enqueue _ 2 _ 0 hw]
    simp only [if_true, live_print]
    change (s.live 2 ++ [s.process_idx]).count p + (s.live 1).count p + (s.live 0).count p +
      s.freed.count p = if p < s.process_idx + 1 then 1 else 0
    rw [List.count_append, List.count_cons, List.count_nil]
    by_cases hp : p = s.process_idx
    · subst hp
      simp at h0 ⊢
      omega
    · have hp' : ¬ s.process_idx = p := fun hc => hp hc.symm
      simp only [beq_iff_eq, hp', if_false]
      split at h0 <;> split <;> omega
  · have := (Inv_print hi e he).conserve
    exact this

theorem Inv_arrivals {n : Nat} {B : Int} :
    ∀ (k : Nat) (s : State), Inv n B s → Inv n B (arrivals n k s) := by
  intro k
  induction k with
  | zero => intro s hi; exact hi
  | succ k ih =>
    intro s hi
    rw [arrivals]
    split
    · rename_i hc
      exact ih _ (Inv_arrive hi hc.1 _ rfl)
    · exact hi

theorem arrivals_done (n : Nat) :
    ∀ (k : Nat) (s : State), n - s.process_idx ≤ k →
      ¬ ((arrivals n k s).process_idx < n ∧
        ((arrivals n k s).mem (arrivals n k s).process_idx).arrival_time ≤
          (arrivals n k s).current_time) := by
  intro k
  induction k with
  | zero =>
    intro s hk hc
    have := hc.1
    simp only [arrivals] at this
    omega
  | succ k ih =>
    intro s hk
    rw [arrivals]
    split
    · apply ih
      simp only [State.enqueue, State.print]
      omega
    · assumption

theorem Inv_iteration {n : Nat} {B : Int} {s : State} (hi : Inv n B s) :
    Inv n B (iteration n s) := by
  have h1 := Inv_reset_check (Inv_schedule (Inv_print (Inv_arrivals (n - s.process_idx) s hi)
    (Event.queueState (arrivals n (n - s.process_idx) s).current_time
      [display_row (arrivals n (n - s.process_idx) s) 2,
        display_row (arrivals n (n - s.process_idx) s) 1,
        display_row (arrivals n (n - s.process_idx) s) 0]) rfl))
  exact ⟨h1.wf, h1.idx_le, h1.occ_eq, h1.freed_done, h1.conserve⟩

theorem Inv_iterations {n : Nat} {B : Int} :
    ∀ (k : Nat) (s : State), Inv n B s → Inv n B (iterations n k s) := by
  intro k
  induction k with
  | zero => intro s hi; exact hi
  | succ k ih =>
    intro s hi
    rw [iterations]
    split
    · exact ih _ (Inv_iteration hi)
    · exact hi

theorem Inv_initial (n : Nat) (mem : Nat → Process) :
    Inv n (total_remaining n mem) (initial mem) := by
  refine ⟨fun q => le_refl _, Nat.zero_le n, fun p => ?_, fun p hp => ?_, ?_⟩
  · simp [State.occ, State.live, initial]
  · simp [initial] at hp
  · simp [initial, delivered]

/-! ## The claims -/

theorem mem_of_remaining (l : List (Int × Int × Int)) (i : Nat) (h : i < l.length) :
    (mem_of l i).remaining_time = (l.get ⟨i, h⟩).2.2 := by
  unfold mem_of
  rw [List.get?_eq_get h]
  rfl

theorem total_remaining_mem_of (l : List (Int × Int × Int)) :
    total_remaining l.length (mem_of l) = (l.map (fun x => x.2.2)).sum := by
  unfold total_remaining
  congr 1
  apply List.ext_get
  · simp
  · intro i h1 h2
    simp only [List.get_eq_getElem, List.getElem_map, List.getElem_range]
    have h3 : i < l.length := by simpa using h2
    exact mem_of_remaining l i h3

theorem route_out (q p : Nat) (s : State) : ∃ tl, (route q p s).out = s.out ++ tl := by
  by_cases h1 : (s.mem p).remaining_time = 0
  · rw [route_completed _ _ _ h1]; exact ⟨_, rfl⟩
  · by_cases h2 : (s.mem p).total_time_in_level ≥ time_allotment q
    · rw [route_demoted _ _ _ h1 h2]; exact ⟨_, rfl⟩
    · rw [route_requeued _ _ _ h1 h2]; exact ⟨[], (List.append_nil _).symm⟩

theorem run_process_out (q : Nat) (s : State) (h : s.front q < s.rear q) :
    ∃ tl, (run_process q s h).out =
      s.out ++ Event.running (s.mem (s.head q h)).pid q (exec_time (s.mem (s.head q h)) q) :: tl := by
  rw [run_process_eq]
  obtain ⟨tl, ht⟩ := route_out q (s.head q h) (before_route q s h)
  refine ⟨tl, ?_⟩
  rw [ht]
  simp [before_route, State.print, State.store, State.advance]

theorem run_process_front (q : Nat) (s : State) (h : s.front q < s.rear q) (q' : Nat) :
    (run_process q s h).front q' = if q' = q then s.front q + 1 else s.front q' := by
  rw [run_process_eq, ← front_advance]
  by_cases h1 : ((before_route q s h).mem (s.head q h)).remaining_time = 0
  · rw [route_completed _ _ _ h1]; rfl
  · by_cases h2 : ((before_route q s h).mem (s.head q h)).total_time_in_level ≥ time_allotment q
    · rw [route_demoted _ _ _ h1 h2]; rfl
    · rw [route_requeued _ _ _ h1 h2]; rfl

theorem schedule_eq_of_max (s : State) (q : Nat) (hq : q < NUM_QUEUES)
    (h : s.front q < s.rear q)
    (hmax : ∀ q', q < q' → q' < NUM_QUEUES → ¬ s.front q' < s.rear q') :
    schedule NUM_QUEUES s = run_process q s h := by
  rcases schedule_cases NUM_QUEUES s with ⟨_, h2⟩ | ⟨q1, h1, hq1, hm1, he⟩
  · exact absurd h (h2 q hq)
  · have : q1 = q := by
      rcases Nat.lt_trichotomy q1 q with hlt | heq | hgt
      · exact absurd h (hm1 q hlt hq)
      · exact heq
      · exact absurd h1 (hmax q1 hgt hq1)
    subst this
    exact he

/-- C1 (work conservation).  For every process list `l`, given as
`(pid, arrival, burst)` triples and created by `create_process`, and every
number `k` of iterations of the main loop of `simulate_mlfq`: the sum of
`remaining_time` over the processes not yet completed (admitted or not) plus the
sum of the slices of all runs performed so far equals the sum of the burst
times of `l`. -/
theorem work_conservation (l : List (Int × Int × Int)) (k : Nat) :
    live_remaining l.length (iterations l.length k (initial (mem_of l))) +
        delivered (iterations l.length k (initial (mem_of l))).out =
      (l.map (fun x => x.2.2)).sum := by
  have hi := Inv_iterations k _ (Inv_initial l.length (mem_of l))
  rw [live_remaining_eq _ _ hi.freed_done, hi.conserve, total_remaining_mem_of]

/-- C2 (priority strictness).  At the selection point of an iteration, in state
`s`: (a) when all three queues are empty no process is run and the state is
unchanged; (b) when queue `q` is non-empty with head `p` and every queue of
larger index is empty, the process run is `p` taken from queue `q`: `front[q]`
advances past `p`, the output gets the line `Running p.pid q slice`, the record
of `p` loses the slice and no other record changes; (c) whenever some queue is
non-empty there is such a largest non-empty queue, so a process is run. -/
theorem priority_strictness (s : State) :
    ((∀ q, q < NUM_QUEUES → s.live q = []) → schedule NUM_QUEUES s = s) ∧
    (∀ q p rest, q < NUM_QUEUES → s.live q = p :: rest →
      (∀ q', q < q' → q' < NUM_QUEUES → s.live q' = []) →
      (∃ tl, (schedule NUM_QUEUES s).out =
        s.out ++ Event.running (s.mem p).pid q (exec_time (s.mem p) q) :: tl) ∧
      (∀ q', (schedule NUM_QUEUES s).front q' = if q' = q then s.front q + 1 else s.front q') ∧
      ((schedule NUM_QUEUES s).mem p).remaining_time =
        (s.mem p).remaining_time - exec_time (s.mem p) q ∧
      (∀ p', p' ≠ p → (schedule NUM_QUEUES s).mem p' = s.mem p')) ∧
    ((∃ q, q < NUM_QUEUES ∧ s.live q ≠ []) →
      ∃ q p rest, q < NUM_QUEUES ∧ s.live q = p :: rest ∧
        ∀ q', q < q' → q' < NUM_QUEUES → s.live q' = []) := by
  refine ⟨fun hall => ?_, fun q p rest hq hl hmax => ?_, fun hex => ?_⟩
  · rcases schedule_cases NUM_QUEUES s with ⟨h1, _⟩ | ⟨q, h, hq, _, _⟩
    · exact h1
    · exact absurd h ((live_eq_nil_iff s q).1 (hall q hq))
  · have h : s.front q < s.rear q := by
      by_contra hc
      rw [(live_eq_nil_iff s q).2 hc] at hl
      exact List.noConfusion hl
    have hp : s.head q h = p := by
      have := live_eq_head_cons s q h
      rw [hl] at this
      exact (List.cons.inj this).1.symm
    rw [schedule_eq_of_max s q hq h (fun q' h1 h2 => (live_eq_nil_iff s q').1 (hmax q' h1 h2))]
    refine ⟨?_, run_process_front q s h, ?_, ?_⟩
    · rw [← hp]; exact run_process_out q s h
    · rw [run_process_remaining, if_pos hp.symm, hp]
    · intro p' hp'
      exact run_process_mem_other q s h p' (by rw [hp]; exact hp')
  · rcases schedule_cases NUM_QUEUES s with ⟨_, h2⟩ | ⟨q, h, hq, hm, _⟩
    · obtain ⟨q, hq, hne⟩ := hex
      exact absurd ((live_eq_nil_iff s q).2 (h2 q hq)) hne
    · exact ⟨q, s.head q h, (s.advance q).live q, hq, live_eq_head_cons s q h,
        fun q' h1 h2 => (live_eq_nil_iff s q').2 (hm q' h1 h2)⟩

theorem priority_strictness_witness :
    sample_state.live 2 = [0] ∧ sample_state.live 1 = [1] ∧
      ∃ tl, (schedule NUM_QUEUES sample_state).out =
        sample_state.out ++
          Event.running (sample_state.mem 0).pid 2 (exec_time (sample_state.mem 0) 2) :: tl :=
  ⟨by decide, by decide,
    ((priority_strictness sample_state).2.1 2 0 [] (by decide) (by decide)
      (fun q' h1 h2 => by unfold NUM_QUEUES at h2; omega)).1⟩

theorem run_record_total_le (p : Process) (q : Nat) (now : Int) :
    (run_record p q now).total_time_in_level ≤ time_allotment q := by
  unfold run_record exec_time
  simp only []
  split <;> omega

/-- C3 (allotment bound).  For every state `s` and queue `q` with a waiting
process: when the completion/demotion/requeue decision is evaluated for the
process selected from queue `q` (its `total_time_in_level` already increased
by the slice), `total_time_in_level <= time_allotment[q]`. -/
theorem allotment_bound (s : State) (q : Nat) (h : s.front q < s.rear q) :
    ((before_route q s h).mem (s.head q h)).total_time_in_level ≤ time_allotment q := by
  rw [before_route_mem_head]
  exact run_record_total_le _ q _

theorem allotment_bound_witness :
    ∃ h : sample_state.front 2 < sample_state.rear 2,
      ((before_route 2 sample_state h).mem (sample_state.head 2 h)).total_time_in_level ≤
        time_allotment 2 :=
  ⟨by decide, allotment_bound sample_state 2 (by decide)⟩

/-- C4 (non-negative slice), evaluated on a failing input.  The list `two_list`
is well formed, and in the tenth iteration of the main loop P2 is run from
queue 2 for a slice of `-6`: the run gives it 6 more units of remaining time
and moves the clock back from 51 to 45. -/
theorem negative_slice :
    well_formed two_list ∧
      (iterations 2 9 (initial (mem_of two_list))).live 2 = [1] ∧
      ((iterations 2 9 (initial (mem_of two_list))).mem 1).total_time_in_level = 16 ∧
      exec_time ((iterations 2 9 (initial (mem_of two_list))).mem 1) 2 = -6 ∧
      (iterations 2 9 (initial (mem_of two_list))).current_time = 51 ∧
      Event.running 2 2 (-6) ∈ (iterations 2 10 (initial (mem_of two_list))).out ∧
      ((iterations 2 9 (initial (mem_of two_list))).mem 1).remaining_time = 1 ∧
      ((iterations 2 10 (initial (mem_of two_list))).mem 1).remaining_time = 7 := by
  refine ⟨by decide, ?_, ?_, ?_, ?_, ?_, ?_, ?_⟩ <;> decide!

/-- C5 (slice formula).  For every record `p` and every queue index `q`, the
slice computed for `p` selected from queue `q` is
`min (min p.remaining_time time_quantum[q]) (time_allotment[q] - p.total_time_in_level)`. -/
theorem slice_formula (p : Process) (q : Nat) :
    exec_time p q =
      min (min p.remaining_time (time_quantum q)) (time_allotment q - p.total_time_in_level) := by
  unfold exec_time
  simp only []
  split <;> split <;> omega

theorem run_process_mem_head (q : Nat) (s : State) (h : s.front q < s.rear q) :
    (run_process q s h).mem (s.head q h) =
      if (run_record (s.mem (s.head q h)) q s.current_time).remaining_time ≠ 0 ∧
          (run_record (s.mem (s.head q h)) q s.current_time).total_time_in_level ≥
            time_allotment q then
        demoted_record q (run_record (s.mem (s.head q h)) q s.current_time)
      else run_record (s.mem (s.head q h)) q s.current_time := by
  rw [run_process_eq, route_mem, before_route_mem_head]
  split
  · exact Function.update_same _ _ _
  · exact before_route_mem_head q s h

/-- C6 (post-run routing).  Let `p` be the head of queue `q` in a state `s` whose
front indices do not exceed the rear indices, let `r` be the record of `p` after
the run (remaining time decreased and `total_time_in_level` increased by the
slice) and `s1` the state after the routing.  Every other record is unchanged
and exactly one of three cases applies.  Completed (`r.remaining_time = 0`): `p` is
freed and appended to no queue.  Demoted (otherwise, if
`r.total_time_in_level >= time_allotment[q]`): the record of `p` is `r` with
`current_queue_idx = max (q - 1) 0` and `total_time_in_level = 0`, and `p` is
appended at the tail of that queue.  Requeued (otherwise): the record of `p` is `r`,
so `current_queue_idx` is unchanged and `total_time_in_level` keeps the value it
had when the decision was evaluated, and `p` is appended at the tail of queue `q`.
In all cases the other waiting processes keep their queue and their order. -/
theorem post_run_routing (s : State) (q : Nat) (hq : q < NUM_QUEUES) (hw : s.WF)
    (h : s.front q < s.rear q) :
    s.live q = s.head q h :: (s.live q).tail ∧
    (∀ p', p' ≠ s.head q h → (run_process q s h).mem p' = s.mem p') ∧
    ((run_record (s.mem (s.head q h)) q s.current_time).remaining_time = 0 →
      (run_process q s h).mem (s.head q h) = run_record (s.mem (s.head q h)) q s.current_time ∧
      (run_process q s h).freed = s.freed ++ [s.head q h] ∧
      ∀ q', (run_process q s h).live q' = if q' = q then (s.live q).tail else s.live q') ∧
    ((run_record (s.mem (s.head q h)) q s.current_time).remaining_time ≠ 0 →
      (run_record (s.mem (s.head q h)) q s.current_time).total_time_in_level ≥ time_allotment q →
      ∃ d : Nat, (d : Int) = max ((q : Int) - 1) 0 ∧ d < NUM_QUEUES ∧
        (run_process q s h).mem (s.head q h) =
          { run_record (s.mem (s.head q h)) q s.current_time with
            current_queue_idx := d, total_time_in_level := 0 } ∧
        (run_process q s h).freed = s.freed ∧
        ∀ q', (run_process q s h).live q' =
          (if q' = q then (s.live q).tail else s.live q') ++ (if q' = d then [s.head q h] else [])) ∧
    ((run_record (s.mem (s.head q h)) q s.current_time).remaining_time ≠ 0 →
      (run_record (s.mem (s.head q h)) q s.current_time).total_time_in_level < time_allotment q →
      (run_process q s h).mem (s.head q h) = run_record (s.mem (s.head q h)) q s.current_time ∧
      (run_process q s h).freed = s.freed ∧
      ∀ q', (run_process q s h).live q' =
        if q' = q then (s.live q).tail ++ [s.head q h] else s.live q') := by
  have hl := live_eq_head_cons s q h
  refine ⟨by rw [hl]; rfl, fun p' hp' => run_process_mem_other q s h p' hp', ?_, ?_, ?_⟩
  · intro h0
    refine ⟨?_, ?_, fun q' => ?_⟩
    · rw [run_process_mem_head, if_neg (fun hc => hc.1 h0)]
    · rw [run_process_freed, if_pos h0]
    · rw [run_process_live q s h hw]
      simp [route_target, h0]
  · intro h0 h1
    refine ⟨q - 1, by omega, by unfold NUM_QUEUES at *; omega, ?_, ?_, fun q' => ?_⟩
    · rw [run_process_mem_head, if_pos ⟨h0, h1⟩]
      unfold demoted_record
      have : (if q > 0 then q - 1 else 0) = q - 1 := by split <;> omega
      rw [this]
    · rw [run_process_freed, if_neg h0, List.append_nil]
    · rw [run_process_live q s h hw]
      have : (if q > 0 then q - 1 else 0) = q - 1 := by split <;> omega
      simp only [route_target, h0, h1, if_true, if_false, this, Option.some.injEq]
      by_cases hd : q' = q - 1
      · simp [hd]
      · simp [hd, Ne.symm hd]
  · intro h0 h1
    have h1' : ¬ (run_record (s.mem (s.head q h)) q s.current_time).total_time_in_level ≥
        time_allotment q := not_le.2 h1
    refine ⟨?_, ?_, fun q' => ?_⟩
    · rw [run_process_mem_head, if_neg (fun hc => h1' hc.2)]
    · rw [run_process_freed, if_neg h0, List.append_nil]
    · rw [run_process_live q s h hw]
      simp only [route_target, h0, h1', if_false, Option.some.injEq]
      by_cases hd : q' = q
      · simp [hd]
      · simp [hd, Ne.symm hd]

theorem post_run_routing_witness :
    ∃ h : sample_state.front 2 < sample_state.rear 2,
      (run_record (sample_state.mem (sample_state.head 2 h)) 2
        sample_state.current_time).remaining_time ≠ 0 ∧
      (run_record (sample_state.mem (sample_state.head 2 h)) 2
        sample_state.current_time).total_time_in_level < time_allotment 2 ∧
      ∀ q', (run_process 2 sample_state h).live q' =
        if q' = 2 then (sample_state.live 2).tail ++ [sample_state.head 2 h]
        else sample_state.live q' :=
  ⟨by decide, by decide, by decide,
    ((post_run_routing sample_state 2 (by decide) (fun q => by
        unfold sample_state initial State.enqueue State.store State.rear
        simp) (by decide)).2.2.2.2 (by decide) (by decide)).2.2⟩

/-- C7 (reset clears level state), evaluated on a failing input.  In the run on
`two_list` the ninth iteration ends at `current_time = 50` with P2 waiting in
queue 1 and `total_time_in_level = 16`.  After `priority_reset` P2 waits in
queue 2 with `current_queue_idx = 2` and queues 1 and 0 are empty, but its
`total_time_in_level` is still 16, not 0. -/
theorem reset_keeps_time_in_level :
    before_reset.current_time = 50 ∧ before_reset.live 1 = [1] ∧
      (before_reset.mem 1).total_time_in_level = 16 ∧
      (priority_reset before_reset).live 2 = [1] ∧
      (priority_reset before_reset).live 1 = [] ∧
      (priority_reset before_reset).live 0 = [] ∧
      ((priority_reset before_reset).mem 1).current_queue_idx = 2 ∧
      ((priority_reset before_reset).mem 1).total_time_in_level = 16 ∧
      Event.priorityReset 50 ∈ (iterations 2 9 (initial (mem_of two_list))).out ∧
      Event.movedToTop 2 ∈ (iterations 2 9 (initial (mem_of two_list))).out := by
  refine ⟨?_, ?_, ?_, ?_, ?_, ?_, ?_, ?_, ?_, ?_⟩ <;> decide!

/-- C8, counterexample.  In `three_levels` (P3 in queue 2, P1 in queue 1, P2 in
queue 0) queue 2 after `priority_reset` is not the old queue 2 followed by
the old queue 0 and then the old queue 1. -/
theorem reset_order_counterexample :
    (priority_reset three_levels).live 2 ≠
      three_levels.live 2 ++ three_levels.live 0 ++ three_levels.live 1 := by
  decide

/-- C8 (reset insertion order), amended.  For every state whose queue 2 has
`front[2] <= rear[2]`, after `priority_reset` queue 2 holds its old contents,
followed by the old contents of queue 1 in their order, followed by the old
contents of queue 0 in their order. -/
theorem reset_order (s : State) (h2 : s.front 2 ≤ s.rear 2) :
    (priority_reset s).live 2 = s.live 2 ++ s.live 1 ++ s.live 0 := by
  rw [priority_reset_live s h2 2, if_pos rfl]

theorem reset_order_witness :
    three_levels.front 2 ≤ three_levels.rear 2 ∧
      (priority_reset three_levels).live 2 =
        three_levels.live 2 ++ three_levels.live 1 ++ three_levels.live 0 :=
  ⟨by decide, reset_order three_levels (by decide)⟩

theorem priority_reset_of_empty (s : State) (h1 : ¬ s.front 1 < s.rear 1)
    (h0 : ¬ s.front 0 < s.rear 0) : priority_reset s = s := by
  unfold priority_reset
  simp only []
  rw [reset_queue_of_empty 1 _ s h1, reset_queue_of_empty 0 _ s h0]

theorem priority_reset_drained (s : State) :
    (¬ (priority_reset s).front 1 < (priority_reset s).rear 1) ∧
      ¬ (priority_reset s).front 0 < (priority_reset s).rear 0 := by
  unfold priority_reset
  simp only []
  refine ⟨?_, reset_queue_drained 0 (by decide) _ _ (le_refl _)⟩
  rw [reset_queue_front_other 0 1 (by decide), reset_queue_rear_other 0 1 (by decide)]
  exact reset_queue_drained 1 (by decide) _ _ (le_refl _)

/-- C9 (idempotence of reset).  For every state in which queue 1 and queue 0
are both empty, `priority_reset` returns the state unchanged (queues, front and
rear indices, records, clock, output); and for every state, `priority_reset`
applied twice gives the same state as applied once. -/
theorem reset_idempotent (s : State) :
    (s.live 1 = [] → s.live 0 = [] → priority_reset s = s) ∧
      priority_reset (priority_reset s) = priority_reset s :=
  ⟨fun h1 h0 =>
      priority_reset_of_empty s ((live_eq_nil_iff s 1).1 h1) ((live_eq_nil_iff s 0).1 h0),
    priority_reset_of_empty _ (priority_reset_drained s).1 (priority_reset_drained s).2⟩

theorem reset_idempotent_witness :
    ((initial (mem_of main_list)).enqueue 2 0).live 1 = [] ∧
      ((initial (mem_of main_list)).enqueue 2 0).live 0 = [] ∧
      priority_reset ((initial (mem_of main_list)).enqueue 2 0) =
        (initial (mem_of main_list)).enqueue 2 0 :=
  ⟨by decide, by decide,
    (reset_idempotent ((initial (mem_of main_list)).enqueue 2 0)).1 (by decide) (by decide)⟩

theorem iterations_of_stop (n k : Nat) (s : State) (h : loop_cond n s = false) :
    iterations n k s = s := by
  cases k with
  | zero => rfl
  | succ k => rw [iterations, h]; rfl

theorem iterations_add (n b : Nat) :
    ∀ (a : Nat) (s : State), iterations n (a + b) s = iterations n b (iterations n a s) := by
  intro a
  induction a with
  | zero => intro s; rw [Nat.zero_add]; rfl
  | succ a ih =>
    intro s
    rw [Nat.add_right_comm, iterations, iterations]
    cases hc : loop_cond n s with
    | true => exact ih _
    | false => exact (iterations_of_stop n b s hc).symm

/-- C10 (default scenario).  For the process list built by `main`: the first
iteration prints the arrival of P1 at time 0, the queue state and
`Running 1 2 4`, and leaves P1 (21 units remaining, `total_time_in_level = 4`,
`current_queue_idx = 2`, last run at time 0) waiting in queue 2 as its only
entry; the main loop stops after 15 iterations (not earlier) and, whatever larger
bound is given, `simulate_mlfq` returns a state in which all three queues are
empty, `process_idx = 3` (no arrival pending) and all three processes have
`remaining_time = 0` and have been freed. -/
theorem default_scenario :
    (iteration 3 (initial (mem_of main_list))).out =
      [Event.arrives 1 0, Event.queueState 0 [(2, [(1, 25)]), (1, []), (0, [])],
        Event.running 1 2 4] ∧
    (iteration 3 (initial (mem_of main_list))).live 2 = [0] ∧
    (iteration 3 (initial (mem_of main_list))).live 1 = [] ∧
    (iteration 3 (initial (mem_of main_list))).live 0 = [] ∧
    (iteration 3 (initial (mem_of main_list))).mem 0 =
      { pid := 1, arrival_time := 0, remaining_time := 21, current_queue_idx := 2,
        total_time_in_level := 4, last_executed_time := 0 } ∧
    ((List.range 15).all (fun k => loop_cond 3 (iterations 3 k (initial (mem_of main_list)))) = true) ∧
    ∀ k, ∃ t, simulate_mlfq 3 (15 + k) (initial (mem_of main_list)) = some t ∧
      t.live 2 = [] ∧ t.live 1 = [] ∧ t.live 0 = [] ∧ t.process_idx = 3 ∧
      (t.mem 0).remaining_time = 0 ∧ (t.mem 1).remaining_time = 0 ∧
      (t.mem 2).remaining_time = 0 ∧ t.freed = [2, 0, 1] := by
  have hstop : loop_cond 3 (iterations 3 15 (initial (mem_of main_list))) = false := by decide!
  refine ⟨by decide!, by decide!, by decide!, by decide!, by decide!, ?_, fun k => ?_⟩
  · decide!
  · refine ⟨iterations 3 15 (initial (mem_of main_list)), ?_, by decide!, by decide!,
      by decide!, by decide!, by decide!, by decide!, by decide!, by decide!⟩
    unfold simulate_mlfq
    simp only []
    rw [iterations_add, iterations_of_stop 3 k _ hstop, hstop]
    rfl

/-! ## Phases of an iteration: clock, records and queues -/

theorem arrivals_mem (n : Nat) : ∀ (k : Nat) (s : State), (arrivals n k s).mem = s.mem := by
  intro k
  induction k with
  | zero => intro s; rfl
  | succ k ih =>
    intro s
    rw [arrivals]
    split
    · rw [ih]; rfl
    · rfl

theorem arrivals_current_time (n : Nat) :
    ∀ (k : Nat) (s : State), (arrivals n k s).current_time = s.current_time := by
  intro k
  induction k with
  | zero => intro s; rfl
  | succ k ih =>
    intro s
    rw [arrivals]
    split
    · rw [ih]; rfl
    · rfl

theorem arrivals_freed (n : Nat) : ∀ (k : Nat) (s : State), (arrivals n k s).freed = s.freed := by
  intro k
  induction k with
  | zero => intro s; rfl
  | succ k ih =>
    intro s
    rw [arrivals]
    split
    · rw [ih]; rfl
    · rfl

theorem WF_arrivals (n : Nat) : ∀ (k : Nat) (s : State), s.WF → (arrivals n k s).WF := by
  intro k
  induction k with
  | zero => intro s hw; exact hw
  | succ k ih =>
    intro s hw
    rw [arrivals]
    split
    · exact ih _ (WF_enqueue _ _ _ hw)
    · exact hw

theorem arrivals_succ (n k : Nat) (s : State) :
    arrivals n (k + 1) s =
      if s.process_idx < n ∧ (s.mem s.process_idx).arrival_time ≤ s.current_time then
        arrivals n k (arrive s)
      else s := rfl

theorem live_arrive (s : State) (hw : s.WF) (q : Nat) :
    (arrive s).live q = if q = 2 then s.live 2 ++ [s.process_idx] else s.live q := by
  exact live_enqueue (State.print { s with process_idx := s.process_idx + 1 }
    (Event.arrives (s.mem s.process_idx).pid s.current_time)) 2 s.process_idx q (hw 2)

theorem WF_arrive (s : State) (hw : s.WF) : (arrive s).WF := WF_enqueue _ _ _ hw

theorem arrivals_live (n : Nat) :
    ∀ (k : Nat) (s : State), s.WF →
      ∃ added, (arrivals n k s).live 2 = s.live 2 ++ added ∧
        (∀ q, q ≠ 2 → (arrivals n k s).live q = s.live q) ∧
        (arrivals n k s).process_idx = s.process_idx + added.length ∧
        (arrivals n k s).process_idx ≤ max n s.process_idx := by
  intro k
  induction k with
  | zero => intro s _; exact ⟨[], by simp [arrivals], fun q _ => rfl, rfl, le_max_right _ _⟩
  | succ k ih =>
    intro s hw
    rw [arrivals_succ]
    split
    · rename_i hc
      obtain ⟨added, h1, h2, h3, h4⟩ := ih _ (WF_arrive s hw)
      refine ⟨s.process_idx :: added, ?_, fun q hq => ?_, ?_, ?_⟩
      · rw [h1, live_arrive s hw, if_pos rfl]
        simp
      · rw [h2 q hq, live_arrive s hw, if_neg hq]
      · rw [h3]
        simp only [arrive, State.enqueue, State.print, List.length_cons]
        omega
      · refine le_trans h4 ?_
        simp only [arrive, State.enqueue, State.print]
        have := hc.1
        omega
    · exact ⟨[], by simp, fun q _ => rfl, rfl, le_max_right _ _⟩

theorem reset_queue_current_time (q : Nat) :
    ∀ (k : Nat) (s : State), (reset_queue q k s).current_time = s.current_time := by
  intro k
  induction k with
  | zero => intro s; rfl
  | succ k ih =>
    intro s
    rw [reset_queue]
    split
    · rw [ih]; rfl
    · rfl

theorem priority_reset_current_time (s : State) :
    (priority_reset s).current_time = s.current_time := by
  unfold priority_reset
  simp only []
  rw [reset_queue_current_time, reset_queue_current_time]

theorem reset_check_current_time (s : State) : (reset_check s).current_time = s.current_time := by
  unfold reset_check
  split
  · rw [priority_reset_current_time]; rfl
  · rfl

theorem iteration_current_time (n : Nat) (s : State) :
    (iteration n s).current_time =
      (schedule NUM_QUEUES
        (display_queues (arrivals n (n - s.process_idx) s))).current_time + 1 := by
  unfold iteration
  simp only []
  rw [reset_check_current_time]

theorem display_current_time (s : State) : (display_queues s).current_time = s.current_time := rfl

theorem display_live (s : State) (q : Nat) : (display_queues s).live q = s.live q := rfl

theorem display_mem (s : State) : (display_queues s).mem = s.mem := rfl

theorem display_front (s : State) : (display_queues s).front = s.front := rfl

theorem display_rear (s : State) (q : Nat) : (display_queues s).rear q = s.rear q := rfl

theorem head_eq_of_live (s : State) (q p : Nat) (rest : List Nat) (hl : s.live q = p :: rest) :
    ∃ h : s.front q < s.rear q, s.head q h = p := by
  have h : s.front q < s.rear q := by
    by_contra hc
    rw [(live_eq_nil_iff s q).2 hc] at hl
    exact List.noConfusion hl
  refine ⟨h, ?_⟩
  have := live_eq_head_cons s q h
  rw [hl] at this
  exact (List.cons.inj this).1.symm


/-! ## Claims on the configuration, the clock and the capacity -/

/-- C12 (top level is never allotment-demoted), evaluated on a failing input.
The allotment of queue 2 is 10, not `INT_MAX`.  In the run of `main`, P1 has
`total_time_in_level = 8` after four iterations and heads queue 2; the fifth
iteration runs it from queue 2 for 2 units and demotes it to queue 1. -/
theorem top_level_demotion :
    time_allotment 2 = 10 ∧ time_allotment 0 = INT_MAX ∧
      (iterations 3 4 (initial (mem_of main_list))).live 2 = [0, 1, 2] ∧
      (iterations 3 4 (initial (mem_of main_list))).live 1 = [] ∧
      ((iterations 3 4 (initial (mem_of main_list))).mem 0).total_time_in_level = 8 ∧
      Event.running 1 2 2 ∈ (iterations 3 5 (initial (mem_of main_list))).out ∧
      Event.demoted 1 1 ∈ (iterations 3 5 (initial (mem_of main_list))).out ∧
      (iterations 3 5 (initial (mem_of main_list))).live 2 = [1, 2] ∧
      (iterations 3 5 (initial (mem_of main_list))).live 1 = [0] ∧
      ((iterations 3 5 (initial (mem_of main_list))).mem 0).current_queue_idx = 1 ∧
      ((iterations 3 5 (initial (mem_of main_list))).mem 0).remaining_time = 15 := by
  refine ⟨rfl, rfl, ?_, ?_, ?_, ?_, ?_, ?_, ?_, ?_, ?_⟩ <;> decide!

/-- C18 (no capacity limit), evaluated on a failing input.  For `hundred_list`
(well formed, `MAX_PROCESSES` processes) the admission step of the first
iteration fills slots 0 to 99 of queue 2, so `rear[2] = MAX_PROCESSES`; P1 is then
run for 4 units and requeued at index 100, outside the array. -/
theorem queue_overflow :
    well_formed hundred_list ∧ hundred_list.length = MAX_PROCESSES ∧
      (arrivals 100 100 (initial (mem_of hundred_list))).rear 2 = MAX_PROCESSES ∧
      (iteration 100 (initial (mem_of hundred_list))).rear 2 = MAX_PROCESSES + 1 ∧
      ((iteration 100 (initial (mem_of hundred_list))).queues 2).get? MAX_PROCESSES = some 0 ∧
      Event.running 1 2 4 ∈ (iteration 100 (initial (mem_of hundred_list))).out := by
  refine ⟨?_, ?_, ?_, ?_, ?_, ?_⟩ <;> decide!


/-- C15, counterexample.  In the first iteration of the run of `main`, P1 is
run for a slice of 4 from `current_time = 0`, and the next iteration starts at
`current_time = 5`, not at `0 + 4`. -/
theorem clock_advance_counterexample :
    (initial (mem_of main_list)).current_time = 0 ∧
      Event.running 1 2 4 ∈ (iteration 3 (initial (mem_of main_list))).out ∧
      (iteration 3 (initial (mem_of main_list))).current_time = 5 ∧
      (iteration 3 (initial (mem_of main_list))).current_time ≠
        (initial (mem_of main_list)).current_time + 4 := by
  refine ⟨rfl, ?_, ?_, ?_⟩ <;> decide!

/-- C15 (clock advance), amended.  Let `a` be the state at the selection point
of the iteration that starts in `s`.  If all three queues are empty, no process
is run and `current_time` at the start of the next iteration is its value at the
start of this one plus 1.  If queue `q` with head `p` is the non-empty queue of
largest index, `p` is run for its slice and `current_time` at the start of the next
iteration is its value at the start of this one plus the slice plus 1. -/
theorem clock_advance (n : Nat) (s : State) :
    ((∀ q, q < NUM_QUEUES →
        (display_queues (arrivals n (n - s.process_idx) s)).live q = []) →
      (iteration n s).current_time = s.current_time + 1) ∧
    (∀ q p rest, q < NUM_QUEUES →
      (display_queues (arrivals n (n - s.process_idx) s)).live q = p :: rest →
      (∀ q', q < q' → q' < NUM_QUEUES →
        (display_queues (arrivals n (n - s.process_idx) s)).live q' = []) →
      (iteration n s).current_time =
        s.current_time +
          exec_time ((display_queues (arrivals n (n - s.process_idx) s)).mem p) q + 1) := by
  refine ⟨fun hall => ?_, fun q p rest hq hl hmax => ?_⟩
  · rw [iteration_current_time]
    rcases schedule_cases NUM_QUEUES (display_queues (arrivals n (n - s.process_idx) s)) with
      ⟨h1, _⟩ | ⟨q, h, hq, _, _⟩
    · rw [h1, display_current_time, arrivals_current_time]
    · exact absurd h ((live_eq_nil_iff _ q).1 (hall q hq))
  · obtain ⟨h, hp⟩ := head_eq_of_live _ q p rest hl
    rw [iteration_current_time,
      schedule_eq_of_max _ q hq h (fun q' h1 h2 => (live_eq_nil_iff _ q').1 (hmax q' h1 h2)),
      run_process_current_time, hp, display_current_time, arrivals_current_time]

theorem clock_advance_witness :
    (display_queues (arrivals 3 (3 - (initial (mem_of main_list)).process_idx)
        (initial (mem_of main_list)))).live 2 = [0] ∧
      (iteration 3 (initial (mem_of main_list))).current_time =
        (initial (mem_of main_list)).current_time +
          exec_time ((display_queues (arrivals 3 (3 - (initial (mem_of main_list)).process_idx)
            (initial (mem_of main_list)))).mem 0) 2 + 1 :=
  ⟨by decide,
    (clock_advance 3 (initial (mem_of main_list))).2 2 0 [] (by decide) (by decide)
      (fun q' h1 h2 => by unfold NUM_QUEUES at h2; omega)⟩

/-- C20 (zero burst).  Let the head `p` of queue 2 be a record as created by
`create_process` with burst 0, in a state whose front indices do not exceed the
rear indices.  On its selection the slice is 0, `remaining_time` and
`total_time_in_level` are unchanged (both 0), and the outcome is Completed: `p` is
freed and appended to no queue, the other queue contents being unchanged. -/
theorem zero_burst (s : State) (hw : s.WF) (h : s.front 2 < s.rear 2) (pid arrival : Int)
    (hp : s.mem (s.head 2 h) = create_process pid arrival 0) :
    exec_time (s.mem (s.head 2 h)) 2 = 0 ∧
    ((run_process 2 s h).mem (s.head 2 h)).remaining_time = 0 ∧
    ((run_process 2 s h).mem (s.head 2 h)).total_time_in_level = 0 ∧
    (run_process 2 s h).freed = s.freed ++ [s.head 2 h] ∧
    (∃ tl, (run_process 2 s h).out =
      s.out ++ Event.running pid 2 0 :: Event.completed pid s.current_time :: tl) ∧
    ∀ q', (run_process 2 s h).live q' = if q' = 2 then (s.live 2).tail else s.live q' := by
  have he0 : exec_time (create_process pid arrival 0) 2 = 0 := by
    simp [create_process, exec_time, time_quantum, time_allotment]
  have he : exec_time (s.mem (s.head 2 h)) 2 = 0 := by rw [hp]; exact he0
  have hr : (run_record (s.mem (s.head 2 h)) 2 s.current_time).remaining_time = 0 := by
    rw [hp]; simp [run_record, he0]; rfl
  have hm : (before_route 2 s h).mem (s.head 2 h) =
      run_record (s.mem (s.head 2 h)) 2 s.current_time := before_route_mem_head 2 s h
  refine ⟨he, ?_, ?_, ?_, ?_, fun q' => ?_⟩
  · rw [run_process_remaining, if_pos rfl, he, hp]; rfl
  · rw [run_process_mem_head, if_neg (fun hc => hc.1 hr), hp]
    simp [run_record, he0]; rfl
  · rw [run_process_freed, if_pos hr]
  · refine ⟨[], ?_⟩
    rw [run_process_eq, route_completed _ _ _ (by rw [hm]; exact hr), hm]
    rw [hp] at he ⊢
    simp [before_route, State.print, State.store, State.advance, he0, hp, run_record]
    rfl
  · rw [run_process_live 2 s h hw]
    simp [route_target, hr]

theorem zero_burst_witness :
    ∃ h : ((initial (mem_of [(7, 0, 0)])).enqueue 2 0).front 2 <
        ((initial (mem_of [(7, 0, 0)])).enqueue 2 0).rear 2,
      exec_time (((initial (mem_of [(7, 0, 0)])).enqueue 2 0).mem
        (((initial (mem_of [(7, 0, 0)])).enqueue 2 0).head 2 h)) 2 = 0 :=
  ⟨by decide,
    (zero_burst ((initial (mem_of [(7, 0, 0)])).enqueue 2 0)
      (fun q => by simp [initial, State.enqueue, State.rear]) (by decide) 7 0 (by decide)).1⟩


theorem WF_display (s : State) (hw : s.WF) : (display_queues s).WF := hw

theorem WF_schedule (s : State) (hw : s.WF) : (schedule NUM_QUEUES s).WF := by
  rcases schedule_cases NUM_QUEUES s with ⟨h1, _⟩ | ⟨q, h, _, _, h3⟩
  · rw [h1]; exact hw
  · rw [h3]; exact run_process_WF q s h hw

theorem reset_cond_iff (t : Int) :
    (t.tmod RESET_PERIOD = 0 ∧ t > 0) ↔ ∃ m : Int, 0 < m ∧ t = RESET_PERIOD * m := by
  unfold RESET_PERIOD
  constructor
  · rintro ⟨h1, h2⟩
    obtain ⟨m, hm⟩ := Int.dvd_of_tmod_eq_zero h1
    exact ⟨m, by omega, hm⟩
  · rintro ⟨m, h1, h2⟩
    exact ⟨Int.tmod_eq_zero_of_dvd ⟨m, h2⟩, by omega⟩

theorem iteration_live (n : Nat) (s : State) (q : Nat) :
    (iteration n s).live q =
      (reset_check (schedule NUM_QUEUES
        (display_queues (arrivals n (n - s.process_idx) s)))).live q := rfl

theorem reset_check_live_fired (s : State) (h2 : s.front 2 ≤ s.rear 2)
    (hc : s.current_time.tmod RESET_PERIOD = 0 ∧ s.current_time > 0) (q : Nat) :
    (reset_check s).live q =
      if q = 2 then s.live 2 ++ s.live 1 ++ s.live 0
      else if q = 1 then [] else if q = 0 then [] else s.live q := by
  unfold reset_check
  rw [if_pos hc]
  exact priority_reset_live (s.print (Event.priorityReset s.current_time)) h2 q

theorem reset_check_skipped (s : State)
    (hc : ¬ (s.current_time.tmod RESET_PERIOD = 0 ∧ s.current_time > 0)) :
    reset_check s = s := by
  unfold reset_check
  rw [if_neg hc]

/-- C14, counterexample.  In the run of `main` the eleventh iteration starts
at `current_time = 48` and ends at 57, passing the multiple 50 of
`RESET_PERIOD`; no `Priority reset` line is printed and at the start of the
next iteration P3, P1 and P2 still wait in queue 1 while queue 2 is empty. -/
theorem periodic_reset_counterexample :
    (iterations 3 10 (initial (mem_of main_list))).current_time = 48 ∧
      (iterations 3 11 (initial (mem_of main_list))).current_time = 57 ∧
      reset_times (iterations 3 11 (initial (mem_of main_list))).out = [] ∧
      (iterations 3 11 (initial (mem_of main_list))).live 1 = [2, 0, 1] ∧
      (iterations 3 11 (initial (mem_of main_list))).live 2 = [] ∧
      loop_cond 3 (iterations 3 11 (initial (mem_of main_list))) = true := by
  refine ⟨?_, ?_, ?_, ?_, ?_, ?_⟩ <;> decide!

/-- C14 (periodic reset), amended.  Let `t` be the state of an iteration after
the run and its routing, the iteration starting in a state whose front indices
do not exceed the rear indices.  If `t.current_time` is exactly a positive
multiple of `RESET_PERIOD`, `priority_reset` is invoked before the next
selection: at the start of the next iteration queue 2 holds its contents in `t`
followed by those of queue 1 and of queue 0, and queues 1 and 0 are empty.
Otherwise (also when the slice passed over a multiple) no reset takes place:
the next iteration starts with the queues as they are in `t`. -/
theorem periodic_reset (n : Nat) (s : State) (hw : s.WF) :
    ((∃ m : Int, 0 < m ∧
        (schedule NUM_QUEUES (display_queues (arrivals n (n - s.process_idx) s))).current_time =
          RESET_PERIOD * m) →
      (iteration n s).live 2 =
          (schedule NUM_QUEUES (display_queues (arrivals n (n - s.process_idx) s))).live 2 ++
            (schedule NUM_QUEUES (display_queues (arrivals n (n - s.process_idx) s))).live 1 ++
            (schedule NUM_QUEUES (display_queues (arrivals n (n - s.process_idx) s))).live 0 ∧
        (iteration n s).live 1 = [] ∧ (iteration n s).live 0 = []) ∧
    ((¬ ∃ m : Int, 0 < m ∧
        (schedule NUM_QUEUES (display_queues (arrivals n (n - s.process_idx) s))).current_time =
          RESET_PERIOD * m) →
      ∀ q, (iteration n s).live q =
        (schedule NUM_QUEUES (display_queues (arrivals n (n - s.process_idx) s))).live q) := by
  have hwt := WF_schedule _ (WF_display _ (WF_arrivals n (n - s.process_idx) s hw))
  refine ⟨fun hm => ?_, fun hm q => ?_⟩
  · have hc := (reset_cond_iff _).2 hm
    refine ⟨?_, ?_, ?_⟩
    · rw [iteration_live, reset_check_live_fired _ (hwt 2) hc, if_pos rfl]
    · rw [iteration_live, reset_check_live_fired _ (hwt 2) hc]; rfl
    · rw [iteration_live, reset_check_live_fired _ (hwt 2) hc]; rfl
  · have hc := fun h => hm ((reset_cond_iff _).1 h)
    rw [iteration_live, reset_check_skipped _ hc]

theorem periodic_reset_witness :
    (∃ m : Int, 0 < m ∧ before_reset.current_time = RESET_PERIOD * m) ∧
      (iteration 2 (iterations 2 8 (initial (mem_of two_list)))).live 2 =
        before_reset.live 2 ++ before_reset.live 1 ++ before_reset.live 0 :=
  ⟨⟨1, by decide, by decide!⟩,
    ((periodic_reset 2 (iterations 2 8 (initial (mem_of two_list)))
      (Inv_iterations 8 _ (Inv_initial 2 (mem_of two_list))).wf).1
        ⟨1, by decide, by decide!⟩).1⟩


/-! ## Second part of the loop invariant -/

theorem exec_time_le_remaining (p : Process) (q : Nat) : exec_time p q ≤ p.remaining_time := by
  unfold exec_time
  simp only []
  split <;> split <;> omega

theorem time_quantum_pos (q : Nat) (hq : q < NUM_QUEUES) : 0 < time_quantum q := by
  unfold NUM_QUEUES at hq
  have : q = 0 ∨ q = 1 ∨ q = 2 := by omega
  rcases this with rfl | rfl | rfl <;> decide

theorem time_allotment_pos (q : Nat) (hq : q < NUM_QUEUES) : 0 < time_allotment q := by
  unfold NUM_QUEUES at hq
  have : q = 0 ∨ q = 1 ∨ q = 2 := by omega
  rcases this with rfl | rfl | rfl <;> decide

theorem time_allotment_nonneg (q : Nat) : 0 ≤ time_allotment q := by
  unfold time_allotment INT_MAX
  split <;> omega

theorem time_quantum_nonneg (q : Nat) : 0 ≤ time_quantum q := by
  unfold time_quantum
  split <;> omega

theorem run_record_remaining_nonneg (p : Process) (q : Nat) (now : Int) :
    0 ≤ (run_record p q now).remaining_time := by
  have := exec_time_le_remaining p q
  simp only [run_record]
  omega

theorem run_record_total_nonneg (p : Process) (q : Nat) (now : Int)
    (hr : 0 ≤ p.remaining_time) (ht : 0 ≤ p.total_time_in_level) :
    0 ≤ (run_record p q now).total_time_in_level := by
  have ha := time_allotment_nonneg q
  have hq := time_quantum_nonneg q
  simp only [run_record]
  unfold exec_time
  simp only []
  split <;> split <;> omega

/-- A run that ends in a requeue has a positive slice. -/
theorem exec_time_pos_of_requeued (p : Process) (q : Nat) (now : Int) (hq : q < NUM_QUEUES)
    (h0 : (run_record p q now).remaining_time ≠ 0)
    (h1 : (run_record p q now).total_time_in_level < time_allotment q) :
    0 < exec_time p q := by
  have hqp := time_quantum_pos q hq
  simp only [run_record] at h0 h1
  unfold exec_time at *
  simp only [] at *
  split at h0 <;> split at h0 <;> (simp_all; try omega)

theorem run_process_field (q : Nat) (s : State) (h : s.front q < s.rear q) (i : Nat) :
    ((run_process q s h).mem i).pid = (s.mem i).pid ∧
      ((run_process q s h).mem i).arrival_time = (s.mem i).arrival_time := by
  by_cases hi : i = s.head q h
  · subst hi
    rw [run_process_mem_head]
    split <;> exact ⟨rfl, rfl⟩
  · rw [run_process_mem_other q s h i hi]
    exact ⟨rfl, rfl⟩

theorem run_process_nonneg (q : Nat) (s : State) (h : s.front q < s.rear q)
    (hr : ∀ i, 0 ≤ (s.mem i).remaining_time) (ht : ∀ i, 0 ≤ (s.mem i).total_time_in_level)
    (i : Nat) :
    0 ≤ ((run_process q s h).mem i).remaining_time ∧
      0 ≤ ((run_process q s h).mem i).total_time_in_level := by
  by_cases hi : i = s.head q h
  · subst hi
    rw [run_process_mem_head]
    have h1 := run_record_remaining_nonneg (s.mem (s.head q h)) q s.current_time
    have h2 := run_record_total_nonneg (s.mem (s.head q h)) q s.current_time (hr _) (ht _)
    split
    · exact ⟨h1, le_refl _⟩
    · exact ⟨h1, h2⟩
  · rw [run_process_mem_other q s h i hi]
    exact ⟨hr i, ht i⟩

theorem head_unique {n : Nat} {B : Int} {s : State} (hi : Inv n B s) (q : Nat)
    (hq : q < NUM_QUEUES) (h : s.front q < s.rear q) (q' : Nat) (hq' : q' < NUM_QUEUES) :
    s.head q h ∉ (if q' = q then (s.live q).tail else s.live q') := by
  have hl := live_eq_head_cons s q h
  have ht : (s.live q).tail = (s.advance q).live q := by rw [hl]; rfl
  have h1 := hi.occ_eq (s.head q h)
  rw [if_pos (hi.head_lt q hq h).1] at h1
  unfold State.occ at h1
  unfold NUM_QUEUES at hq hq'
  have hq3 : q = 0 ∨ q = 1 ∨ q = 2 := by omega
  have hq3' : q' = 0 ∨ q' = 1 ∨ q' = 2 := by omega
  rw [← List.count_eq_zero]
  rcases hq3 with rfl | rfl | rfl <;> rcases hq3' with rfl | rfl | rfl <;>
    simp only [ht] <;> rw [hl] at h1 <;> simp [List.count_cons] at h1 ⊢ <;> omega

theorem route_arrival_log (q p : Nat) (s : State) :
    arrival_log (route q p s).out = arrival_log s.out := by
  by_cases h1 : (s.mem p).remaining_time = 0
  · rw [route_completed q p s h1]; simp [arrival_log, State.print, Event.arrival]
  · by_cases h2 : (s.mem p).total_time_in_level ≥ time_allotment q
    · rw [route_demoted q p s h1 h2]
      simp [arrival_log, State.print, State.enqueue, State.store, Event.arrival]
    · rw [route_requeued q p s h1 h2]; rfl

theorem run_process_arrival_log (q : Nat) (s : State) (h : s.front q < s.rear q) :
    arrival_log (run_process q s h).out = arrival_log s.out := by
  rw [run_process_eq, route_arrival_log]
  simp [before_route, State.store, State.print, State.advance, arrival_log, Event.arrival]

theorem route_slots (q p : Nat) (s : State) (x : Nat) (hx : x ∈ s.queues 2) :
    x ∈ (route q p s).queues 2 := by
  have he : ∀ (t : State) (d y : Nat), x ∈ t.queues 2 → x ∈ (t.enqueue d y).queues 2 := by
    intro t d y hy
    unfold State.enqueue
    by_cases hd : (2 : Nat) = d
    · subst hd; simp [hy]
    · simp [Function.update_noteq hd, hy]
  by_cases h1 : (s.mem p).remaining_time = 0
  · rw [route_completed q p s h1]; exact hx
  · by_cases h2 : (s.mem p).total_time_in_level ≥ time_allotment q
    · rw [route_demoted q p s h1 h2]
      exact he _ _ _ hx
    · rw [route_requeued q p s h1 h2]; exact he _ _ _ hx

theorem run_process_slots (q : Nat) (s : State) (h : s.front q < s.rear q) (x : Nat)
    (hx : x ∈ s.queues 2) : x ∈ (run_process q s h).queues 2 := by
  rw [run_process_eq]
  exact route_slots _ _ _ x hx

theorem Inv2_run_process {n : Nat} {B : Int} {m0 : Nat → Process} {s : State} (hi : Inv n B s)
    (h2 : Inv2 n m0 s) (q : Nat) (hq : q < NUM_QUEUES) (h : s.front q < s.rear q) :
    Inv2 n m0 (run_process q s h) := by
  have hh := hi.head_lt q hq h
  refine ⟨fun i => ?_, fun i => ?_, fun h0 i => ?_, fun q' hq' x hx => ?_,
    fun i h1 h3 => ?_, ?_, fun i hi' => ?_⟩
  · rw [(run_process_field q s h i).1]; exact h2.pid_eq i
  · rw [(run_process_field q s h i).2]; exact h2.arrival_eq i
  · exact run_process_nonneg q s h (fun i => (h2.nonneg h0 i).1) (fun i => (h2.nonneg h0 i).2) i
  · rw [run_process_live q s h hi.wf, List.mem_append] at hx
    rcases hx with hx | hx
    · have hne : x ≠ s.head q h := fun hc => head_unique hi q hq h q' hq' (hc ▸ hx)
      rw [run_process_mem_other q s h x hne]
      apply h2.level q' hq'
      split at hx
      · subst_vars; exact List.mem_of_mem_tail hx
      · exact hx
    · split at hx
      · rename_i ht
        have hxp : x = s.head q h := by simpa using hx
        subst hxp
        rw [run_process_mem_head]
        unfold route_target at ht
        have hlev := h2.level q hq _ (head_mem_live q s h)
        split
        · rename_i hc
          rw [if_neg hc.1, if_pos hc.2] at ht
          exact Option.some.inj ht
        · rename_i hc
          by_cases h0 : (run_record (s.mem (s.head q h)) q s.current_time).remaining_time = 0
          · rw [if_pos h0] at ht; exact Option.noConfusion ht
          · have h1 : ¬ (run_record (s.mem (s.head q h)) q s.current_time).total_time_in_level ≥
                time_allotment q := fun hc' => hc ⟨h0, hc'⟩
            rw [if_neg h0, if_neg h1] at ht
            rw [← Option.some.inj ht]
            exact hlev
      · simp at hx
  · rw [run_process_process_idx] at h1
    have hne : i ≠ s.head q h := by omega
    rw [run_process_mem_other q s h i hne]
    exact h2.fresh i h1 h3
  · rw [run_process_arrival_log, run_process_process_idx]
    exact h2.arrived
  · rw [run_process_process_idx] at hi'
    exact run_process_slots q s h i (h2.slots i hi')

theorem Inv2_schedule {n : Nat} {B : Int} {m0 : Nat → Process} {s : State} (hi : Inv n B s)
    (h2 : Inv2 n m0 s) : Inv2 n m0 (schedule NUM_QUEUES s) := by
  rcases schedule_cases NUM_QUEUES s with ⟨h1, _⟩ | ⟨q, h, hq, _, h3⟩
  · rw [h1]; exact h2
  · rw [h3]; exact Inv2_run_process hi h2 q hq h


theorem arrival_log_print (s : State) (e : Event) :
    arrival_log (s.print e).out = arrival_log s.out ++ e.arrival.toList := by
  unfold arrival_log State.print
  rw [List.filterMap_append]
  cases h : e.arrival <;> simp [List.filterMap_cons, h]

theorem Inv2_print {n : Nat} {m0 : Nat → Process} {s : State} (h2 : Inv2 n m0 s) (e : Event)
    (he : e.arrival = none) : Inv2 n m0 (s.print e) := by
  refine ⟨h2.pid_eq, h2.arrival_eq, h2.nonneg, h2.level, h2.fresh, ?_, h2.slots⟩
  rw [arrival_log_print, he]
  simpa using h2.arrived

theorem Inv2_arrive {n : Nat} {B : Int} {m0 : Nat → Process} {s : State} (hi : Inv n B s)
    (h2 : Inv2 n m0 s) (hc : s.process_idx < n ∧
      (s.mem s.process_idx).arrival_time ≤ s.current_time) : Inv2 n m0 (arrive s) := by
  refine ⟨h2.pid_eq, h2.arrival_eq, h2.nonneg, fun q hq x hx => ?_,
    fun i h1 h3 => ?_, ?_, fun i hi' => ?_⟩
  · rw [live_arrive s hi.wf] at hx
    change (s.mem x).current_queue_idx = q
    split at hx
    · subst_vars
      rcases List.mem_append.1 hx with hx | hx
      · exact h2.level 2 (by decide) x hx
      · have : x = s.process_idx := by simpa using hx
        rw [this]
        exact h2.fresh _ (le_refl _) hc.1
    · exact h2.level q hq x hx
  · exact h2.fresh i (by
      have : (arrive s).process_idx = s.process_idx + 1 := rfl
      omega) h3
  · change List.Forall₂ _ (arrival_log (State.print _ _).out) (List.range (s.process_idx + 1))
    rw [arrival_log_print, List.range_succ]
    refine List.rel_append h2.arrived ?_
    refine List.Forall₂.cons ⟨?_, ?_⟩ List.Forall₂.nil
    · exact h2.pid_eq _
    · rw [← h2.arrival_eq]; exact hc.2
  · have hidx : (arrive s).process_idx = s.process_idx + 1 := rfl
    rw [hidx] at hi'
    have hq : (arrive s).queues 2 = s.queues 2 ++ [s.process_idx] := by
      simp [arrive, State.enqueue, State.print]
    rw [hq, List.mem_append]
    by_cases hlt : i < s.process_idx
    · exact Or.inl (h2.slots i hlt)
    · right
      have : i = s.process_idx := by omega
      simp [this]

theorem Inv_arrive_step {n : Nat} {B : Int} {s : State} (hi : Inv n B s)
    (hc : s.process_idx < n) : Inv n B (arrive s) :=
  Inv_arrive hi hc _ rfl

theorem Inv2_arrivals {n : Nat} {B : Int} {m0 : Nat → Process} :
    ∀ (k : Nat) (s : State), Inv n B s → Inv2 n m0 s → Inv2 n m0 (arrivals n k s) := by
  intro k
  induction k with
  | zero => intro s _ h2; exact h2
  | succ k ih =>
    intro s hi h2
    rw [arrivals_succ]
    split
    · rename_i hc
      exact ih _ (Inv_arrive_step hi hc.1) (Inv2_arrive hi h2 hc)
    · exact h2

theorem reset_move_arrival_log (q : Nat) (s : State) (h : s.front q < s.rear q) :
    arrival_log (reset_move q s h).out = arrival_log s.out := by
  simp [reset_move, arrival_log, State.print, State.enqueue, State.store, State.advance,
    Event.arrival]

theorem reset_move_field (q : Nat) (s : State) (h : s.front q < s.rear q) (i : Nat) :
    ((reset_move q s h).mem i).pid = (s.mem i).pid ∧
      ((reset_move q s h).mem i).arrival_time = (s.mem i).arrival_time ∧
      ((reset_move q s h).mem i).current_queue_idx =
        (if i = s.head q h then 2 else (s.mem i).current_queue_idx) := by
  rw [reset_move_mem]
  by_cases hp : i = s.head q h
  · subst hp; simp
  · simp [Function.update_noteq hp, hp]

theorem Inv2_reset_move {n : Nat} {B : Int} {m0 : Nat → Process} {s : State} (hi : Inv n B s)
    (h2 : Inv2 n m0 s) (q : Nat) (hq : q < NUM_QUEUES) (h : s.front q < s.rear q) :
    Inv2 n m0 (reset_move q s h) := by
  have hh := hi.head_lt q hq h
  refine ⟨fun i => ?_, fun i => ?_, fun h0 i => ?_, fun q' hq' x hx => ?_,
    fun i h1 h3 => ?_, ?_, fun i hi' => ?_⟩
  · rw [(reset_move_field q s h i).1]; exact h2.pid_eq i
  · rw [(reset_move_field q s h i).2.1]; exact h2.arrival_eq i
  · rw [reset_move_remaining, reset_move_total]; exact h2.nonneg h0 i
  · rw [reset_move_live q s h (hi.wf 2), List.mem_append] at hx
    rw [(reset_move_field q s h x).2.2]
    rcases hx with hx | hx
    · have hne : x ≠ s.head q h := fun hc => head_unique hi q hq h q' hq' (hc ▸ hx)
      rw [if_neg hne]
      apply h2.level q' hq'
      split at hx
      · subst_vars; exact List.mem_of_mem_tail hx
      · exact hx
    · split at hx
      · have hxp : x = s.head q h := by simpa using hx
        rw [if_pos hxp]
        subst_vars; rfl
      · simp at hx
  · rw [reset_move_process_idx] at h1
    have hne : i ≠ s.head q h := by omega
    rw [(reset_move_field q s h i).2.2, if_neg hne]
    exact h2.fresh i h1 h3
  · rw [reset_move_arrival_log, reset_move_process_idx]
    exact h2.arrived
  · rw [reset_move_process_idx] at hi'
    have := h2.slots i hi'
    simp [reset_move, State.print, State.enqueue, State.store, State.advance, this]

theorem Inv2_reset_queue {n : Nat} {B : Int} {m0 : Nat → Process} (q : Nat)
    (hq : q < NUM_QUEUES) :
    ∀ (k : Nat) (s : State), Inv n B s → Inv2 n m0 s → Inv2 n m0 (reset_queue q k s) := by
  intro k
  induction k with
  | zero => intro s _ h2; exact h2
  | succ k ih =>
    intro s hi h2
    rw [reset_queue]
    split
    · exact ih _ (Inv_reset_move hi q hq _) (Inv2_reset_move hi h2 q hq _)
    · exact h2

theorem Inv2_priority_reset {n : Nat} {B : Int} {m0 : Nat → Process} {s : State}
    (hi : Inv n B s) (h2 : Inv2 n m0 s) : Inv2 n m0 (priority_reset s) :=
  Inv2_reset_queue 0 (by decide) _ _ (Inv_reset_queue 1 (by decide) _ _ hi)
    (Inv2_reset_queue 1 (by decide) _ _ hi h2)

theorem Inv2_reset_check {n : Nat} {B : Int} {m0 : Nat → Process} {s : State}
    (hi : Inv n B s) (h2 : Inv2 n m0 s) : Inv2 n m0 (reset_check s) := by
  unfold reset_check
  split
  · exact Inv2_priority_reset (Inv_print hi _ rfl) (Inv2_print h2 _ rfl)
  · exact h2

theorem Inv_selection {n : Nat} {B : Int} {s : State} (hi : Inv n B s) :
    Inv n B (display_queues (arrivals n (n - s.process_idx) s)) :=
  Inv_print (Inv_arrivals (n - s.process_idx) s hi) _ rfl

theorem Inv2_selection {n : Nat} {B : Int} {m0 : Nat → Process} {s : State}
    (hi : Inv n B s) (h2 : Inv2 n m0 s) :
    Inv2 n m0 (display_queues (arrivals n (n - s.process_idx) s)) :=
  Inv2_print (Inv2_arrivals (n - s.process_idx) s hi h2) _ rfl

theorem Inv2_iteration {n : Nat} {B : Int} {m0 : Nat → Process} {s : State}
    (hi : Inv n B s) (h2 : Inv2 n m0 s) : Inv2 n m0 (iteration n s) := by
  have h1 := Inv2_reset_check (Inv_schedule (Inv_selection hi))
    (Inv2_schedule (Inv_selection hi) (Inv2_selection hi h2))
  exact ⟨h1.pid_eq, h1.arrival_eq, h1.nonneg, h1.level, h1.fresh, h1.arrived, h1.slots⟩

theorem Inv2_iterations {n : Nat} {B : Int} {m0 : Nat → Process} :
    ∀ (k : Nat) (s : State), Inv n B s → Inv2 n m0 s → Inv2 n m0 (iterations n k s) := by
  intro k
  induction k with
  | zero => intro s _ h2; exact h2
  | succ k ih =>
    intro s hi h2
    rw [iterations]
    split
    · exact ih _ (Inv_iteration hi) (Inv2_iteration hi h2)
    · exact h2

theorem mem_of_get (l : List (Int × Int × Int)) (i : Nat) (h : i < l.length) :
    mem_of l i = create_process (l.get ⟨i, h⟩).1 (l.get ⟨i, h⟩).2.1 (l.get ⟨i, h⟩).2.2 := by
  unfold mem_of
  rw [List.get?_eq_get h]

theorem mem_of_default (l : List (Int × Int × Int)) (i : Nat) (h : l.length ≤ i) :
    mem_of l i = default := by
  unfold mem_of
  rw [List.get?_eq_none.2 h]

theorem mem_of_total (l : List (Int × Int × Int)) (i : Nat) :
    (mem_of l i).total_time_in_level = 0 := by
  by_cases h : i < l.length
  · rw [mem_of_get l i h]; rfl
  · rw [mem_of_default l i (by omega)]; rfl

theorem mem_of_nonneg (l : List (Int × Int × Int)) (hb : ∀ x ∈ l, 0 ≤ x.2.2) (i : Nat) :
    0 ≤ (mem_of l i).remaining_time := by
  by_cases h : i < l.length
  · rw [mem_of_get l i h]
    exact hb _ (List.get_mem l i h)
  · rw [mem_of_default l i (by omega)]; exact le_refl _

theorem Inv2_initial (l : List (Int × Int × Int)) :
    Inv2 l.length (mem_of l) (initial (mem_of l)) := by
  refine ⟨fun _ => rfl, fun _ => rfl, fun h0 i => ⟨h0 i, ?_⟩, fun q _ x hx => ?_,
    fun i _ h3 => ?_, ?_, fun i hi => ?_⟩
  · exact le_of_eq (mem_of_total l i).symm
  · simp [State.live, initial] at hx
  · change (mem_of l i).current_queue_idx = 2
    rw [mem_of_get l i h3]; rfl
  · exact List.Forall₂.nil
  · exact absurd hi (Nat.not_lt_zero i)


/-! ## Claims on the reachable states -/

theorem before_route_remaining_nonneg (q : Nat) (s : State) (h : s.front q < s.rear q)
    (hr : ∀ i, 0 ≤ (s.mem i).remaining_time) (i : Nat) :
    0 ≤ ((before_route q s h).mem i).remaining_time := by
  by_cases hi : i = s.head q h
  · rw [hi, before_route_mem_head]
    exact run_record_remaining_nonneg _ _ _
  · have : (before_route q s h).mem i = s.mem i := by
      simp [before_route, State.store, State.print, State.advance, Function.update_noteq hi]
    rw [this]; exact hr i

/-- C19 (remaining time stays non-negative).  For every process list with
non-negative burst times and every number `k` of iterations of the main loop:
every record has `remaining_time >= 0` at the start of the next iteration and,
for the queue `q` from which that iteration selects, also after the run and
after the routing; and when the routing puts the process back into a queue `d`
(requeue or demotion) its `remaining_time` is positive. -/
theorem remaining_nonneg (l : List (Int × Int × Int)) (hb : ∀ x ∈ l, 0 ≤ x.2.2) (k : Nat) :
    (∀ i, 0 ≤ ((iterations l.length k (initial (mem_of l))).mem i).remaining_time) ∧
    ∀ (q : Nat)
      (h : (display_queues (arrivals l.length
          (l.length - (iterations l.length k (initial (mem_of l))).process_idx)
          (iterations l.length k (initial (mem_of l))))).front q <
        (display_queues (arrivals l.length
          (l.length - (iterations l.length k (initial (mem_of l))).process_idx)
          (iterations l.length k (initial (mem_of l))))).rear q),
      (∀ i, 0 ≤ ((before_route q _ h).mem i).remaining_time) ∧
      (∀ i, 0 ≤ ((run_process q _ h).mem i).remaining_time) ∧
      ∀ d, route_target q ((before_route q _ h).mem (State.head _ q h)) = some d →
        0 < ((run_process q _ h).mem (State.head _ q h)).remaining_time := by
  have hi := Inv_iterations k _ (Inv_initial l.length (mem_of l))
  have h2 := Inv2_iterations k _ (Inv_initial l.length (mem_of l)) (Inv2_initial l)
  have hn := mem_of_nonneg l hb
  refine ⟨fun i => (h2.nonneg hn i).1, fun q h => ?_⟩
  have ha := (Inv2_selection hi h2).nonneg hn
  refine ⟨before_route_remaining_nonneg q _ h (fun i => (ha i).1), fun i => ?_, fun d hd => ?_⟩
  · exact (run_process_nonneg q _ h (fun i => (ha i).1) (fun i => (ha i).2) i).1
  · rw [run_process_eq, route_remaining]
    have h0 := before_route_remaining_nonneg q _ h (fun i => (ha i).1) (State.head _ q h)
    have hne : ((before_route q _ h).mem (State.head _ q h)).remaining_time ≠ 0 := by
      intro hc
      unfold route_target at hd
      rw [if_pos hc] at hd
      exact Option.noConfusion hd
    omega

theorem remaining_nonneg_witness :
    (∀ x ∈ main_list, (0 : Int) ≤ x.2.2) ∧
      ∀ i, 0 ≤ ((iterations main_list.length 7 (initial (mem_of main_list))).mem i).remaining_time :=
  ⟨by decide, (remaining_nonneg main_list (by decide) 7).1⟩

/-- C13 (single membership).  For every process list (its records at distinct
addresses) and every number `k` of iterations, at the start of the next
iteration: (a) every admitted, not yet completed process occurs exactly once in
the waiting ranges of the three queues taken together, its `current_queue_idx`
is below `NUM_QUEUES` and it waits in the queue of that index; (b) a process not
yet admitted, or completed, occurs in no queue; (c) in that iteration, between the
dequeue of the selected process and its routing, the selected process occurs in
no queue. -/
theorem single_membership (l : List (Int × Int × Int)) (k : Nat) :
    (∀ p, p < (iterations l.length k (initial (mem_of l))).process_idx →
      p ∉ (iterations l.length k (initial (mem_of l))).freed →
      ((iterations l.length k (initial (mem_of l))).live 2).count p +
        ((iterations l.length k (initial (mem_of l))).live 1).count p +
        ((iterations l.length k (initial (mem_of l))).live 0).count p = 1 ∧
      ((iterations l.length k (initial (mem_of l))).mem p).current_queue_idx < NUM_QUEUES ∧
      p ∈ (iterations l.length k (initial (mem_of l))).live
        ((iterations l.length k (initial (mem_of l))).mem p).current_queue_idx) ∧
    (∀ p, ((iterations l.length k (initial (mem_of l))).process_idx ≤ p ∨
        p ∈ (iterations l.length k (initial (mem_of l))).freed) →
      ∀ q, q < NUM_QUEUES → p ∉ (iterations l.length k (initial (mem_of l))).live q) ∧
    ∀ (q : Nat)
      (h : (display_queues (arrivals l.length
          (l.length - (iterations l.length k (initial (mem_of l))).process_idx)
          (iterations l.length k (initial (mem_of l))))).front q <
        (display_queues (arrivals l.length
          (l.length - (iterations l.length k (initial (mem_of l))).process_idx)
          (iterations l.length k (initial (mem_of l))))).rear q),
      q < NUM_QUEUES → ∀ q', q' < NUM_QUEUES →
        State.head _ q h ∉ (before_route q _ h).live q' := by
  have hi := Inv_iterations k _ (Inv_initial l.length (mem_of l))
  have h2 := Inv2_iterations k _ (Inv_initial l.length (mem_of l)) (Inv2_initial l)
  generalize iterations l.length k (initial (mem_of l)) = s at hi h2 ⊢
  refine ⟨fun p hp hf => ?_, fun p hp q hq => ?_, fun q h hq q' hq' => ?_⟩
  · have ho := hi.occ_eq p
    rw [if_pos hp] at ho
    unfold State.occ at ho
    have hf0 : s.freed.count p = 0 := List.count_eq_zero.2 hf
    have hsum : (s.live 2).count p + (s.live 1).count p + (s.live 0).count p = 1 := by omega
    refine ⟨hsum, ?_⟩
    have hex : ∃ q, q < NUM_QUEUES ∧ p ∈ s.live q := by
      by_cases c2 : p ∈ s.live 2
      · exact ⟨2, by decide, c2⟩
      · by_cases c1 : p ∈ s.live 1
        · exact ⟨1, by decide, c1⟩
        · by_cases c0 : p ∈ s.live 0
          · exact ⟨0, by decide, c0⟩
          · have e2 := List.count_eq_zero.2 c2
            have e1 := List.count_eq_zero.2 c1
            have e0 := List.count_eq_zero.2 c0
            omega
    obtain ⟨q, hq, hm⟩ := hex
    have hl := h2.level q hq p hm
    rw [hl]
    exact ⟨hq, hm⟩
  · have ho := hi.occ_eq p
    intro hm
    have h1 := occ_pos_of_mem_live s q p hq hm
    rcases hp with hp | hp
    · rw [if_neg (by omega)] at ho
      omega
    · have : p < s.process_idx := by
        by_contra hc
        rw [if_neg hc] at ho
        omega
      rw [if_pos this] at ho
      exact h1.2 (by omega) hp
  · rw [before_route_live]
    exact head_unique (Inv_selection hi) q hq h q' hq'


theorem single_membership_witness :
    0 < (iterations main_list.length 5 (initial (mem_of main_list))).process_idx ∧
      0 ∉ (iterations main_list.length 5 (initial (mem_of main_list))).freed ∧
      ((iterations main_list.length 5 (initial (mem_of main_list))).live 2).count 0 +
        ((iterations main_list.length 5 (initial (mem_of main_list))).live 1).count 0 +
        ((iterations main_list.length 5 (initial (mem_of main_list))).live 0).count 0 = 1 :=
  ⟨by decide!, by decide!, ((single_membership main_list 5).1 0 (by decide!) (by decide!)).1⟩

theorem mem_of_arrival_sorted (l : List (Int × Int × Int))
    (hs : l.Pairwise (fun x y => x.2.1 ≤ y.2.1)) (i j : Nat) (hij : i ≤ j) (hj : j < l.length) :
    (mem_of l i).arrival_time ≤ (mem_of l j).arrival_time := by
  rcases Nat.eq_or_lt_of_le hij with heq | hlt
  · rw [heq]
  · rw [mem_of_get l i (by omega), mem_of_get l j hj]
    exact List.pairwise_iff_get.1 hs ⟨i, by omega⟩ ⟨j, hj⟩ hlt

/-- C17, counterexample.  For `unsorted_list` (P1 arriving at 5 listed before P2
arriving at 0), after the admission step of the first iteration the clock is 0
and P2, whose arrival time is 0, has not been enqueued: nothing has been admitted
and queue 2 has no slot written. -/
theorem admission_counterexample :
    (arrivals 2 2 (initial (mem_of unsorted_list))).current_time = 0 ∧
      (mem_of unsorted_list 1).arrival_time ≤
        (arrivals 2 2 (initial (mem_of unsorted_list))).current_time ∧
      (arrivals 2 2 (initial (mem_of unsorted_list))).process_idx = 0 ∧
      (arrivals 2 2 (initial (mem_of unsorted_list))).queues 2 = [] ∧
      (arrivals 2 2 (initial (mem_of unsorted_list))).out = [] := by
  refine ⟨?_, ?_, ?_, ?_, ?_⟩ <;> decide

/-- C17 (admission), amended.  For every process list in non-decreasing arrival
order and every number `k` of iterations, immediately after the admission step
of the next iteration: every process of the list whose arrival time is at most
`current_time` has been admitted and written to a slot of queue 2; and the
`arrives` lines printed so far are those of the admitted processes, one line
each, in list order, each printed at a clock value not smaller than the arrival
time of its process. -/
theorem admission (l : List (Int × Int × Int)) (hs : l.Pairwise (fun x y => x.2.1 ≤ y.2.1))
    (k : Nat) :
    (∀ i, i < l.length →
      (mem_of l i).arrival_time ≤
        (arrivals l.length (l.length - (iterations l.length k (initial (mem_of l))).process_idx)
          (iterations l.length k (initial (mem_of l)))).current_time →
      i < (arrivals l.length
          (l.length - (iterations l.length k (initial (mem_of l))).process_idx)
          (iterations l.length k (initial (mem_of l)))).process_idx ∧
        i ∈ (arrivals l.length
          (l.length - (iterations l.length k (initial (mem_of l))).process_idx)
          (iterations l.length k (initial (mem_of l)))).queues 2) ∧
    List.Forall₂ (fun ev i => ev.1 = (mem_of l i).pid ∧ (mem_of l i).arrival_time ≤ ev.2)
      (arrival_log (arrivals l.length
        (l.length - (iterations l.length k (initial (mem_of l))).process_idx)
        (iterations l.length k (initial (mem_of l)))).out)
      (List.range (arrivals l.length
        (l.length - (iterations l.length k (initial (mem_of l))).process_idx)
        (iterations l.length k (initial (mem_of l)))).process_idx) := by
  have hi := Inv_iterations k _ (Inv_initial l.length (mem_of l))
  have h2 := Inv2_iterations k _ (Inv_initial l.length (mem_of l)) (Inv2_initial l)
  generalize iterations l.length k (initial (mem_of l)) = s at hi h2 ⊢
  have ha := Inv2_arrivals (l.length - s.process_idx) s hi h2
  have hia := Inv_arrivals (l.length - s.process_idx) s hi
  have hd := arrivals_done l.length (l.length - s.process_idx) s (le_refl _)
  refine ⟨fun i hil hle => ?_, ha.arrived⟩
  have hlt : i < (arrivals l.length (l.length - s.process_idx) s).process_idx := by
    by_contra hc
    have hidx : (arrivals l.length (l.length - s.process_idx) s).process_idx < l.length := by
      omega
    apply hd
    refine ⟨hidx, ?_⟩
    rw [ha.arrival_eq]
    exact le_trans (mem_of_arrival_sorted l hs _ i (by omega) hil) hle
  exact ⟨hlt, ha.slots i hlt⟩

theorem admission_witness :
    main_list.Pairwise (fun x y => x.2.1 ≤ y.2.1) ∧
      List.Forall₂
        (fun ev i => ev.1 = (mem_of main_list i).pid ∧ (mem_of main_list i).arrival_time ≤ ev.2)
        (arrival_log (arrivals main_list.length
          (main_list.length -
            (iterations main_list.length 1 (initial (mem_of main_list))).process_idx)
          (iterations main_list.length 1 (initial (mem_of main_list)))).out)
        (List.range (arrivals main_list.length
          (main_list.length -
            (iterations main_list.length 1 (initial (mem_of main_list))).process_idx)
          (iterations main_list.length 1 (initial (mem_of main_list)))).process_idx) :=
  ⟨by decide, (admission main_list (by decide) 1).2⟩


/-! ## Input validation -/

theorem arrivals_out_mono (n : Nat) (e : Event) :
    ∀ (k : Nat) (s : State), e ∈ s.out → e ∈ (arrivals n k s).out := by
  intro k
  induction k with
  | zero => intro s h; exact h
  | succ k ih =>
    intro s h
    rw [arrivals_succ]
    split
    · apply ih
      simp [arrive, State.enqueue, State.print, h]
    · exact h

theorem reset_queue_out_mono (q : Nat) (e : Event) :
    ∀ (k : Nat) (s : State), e ∈ s.out → e ∈ (reset_queue q k s).out := by
  intro k
  induction k with
  | zero => intro s h; exact h
  | succ k ih =>
    intro s h
    rw [reset_queue]
    split
    · apply ih
      simp [reset_move, State.enqueue, State.print, State.store, State.advance, h]
    · exact h

theorem reset_check_out_mono (e : Event) (s : State) (h : e ∈ s.out) :
    e ∈ (reset_check s).out := by
  unfold reset_check
  split
  · unfold priority_reset
    simp only []
    apply reset_queue_out_mono
    apply reset_queue_out_mono
    simp [State.print, h]
  · exact h

/-- C16, counterexample.  The list `negative_list` holds one process with burst
time -5.  The first iteration of the main loop admits it at time 0, runs it
from queue 2 for a slice of -5 and completes it at time -5: the simulation
runs and the state changes. -/
theorem malformed_input_counterexample :
    (∃ x ∈ negative_list, x.2.2 < 0) ∧
      (iteration 1 (initial (mem_of negative_list))).out =
        [Event.arrives 1 0, Event.queueState 0 [(2, [(1, -5)]), (1, []), (0, [])],
          Event.running 1 2 (-5), Event.completed 1 (-5)] ∧
      (iteration 1 (initial (mem_of negative_list))).queues 2 = [0] ∧
      (iteration 1 (initial (mem_of negative_list))).process_idx = 1 ∧
      (iteration 1 (initial (mem_of negative_list))).current_time = -4 := by
  refine ⟨by decide, ?_, ?_, ?_, ?_⟩ <;> decide!

/-- C16 (malformed input), amended.  `simulate_mlfq` does not validate its
input.  For every process list whose first process `(pid, a, b)` has arrival
time `a <= 0`, whatever the signs of `a`, of the burst time `b` and of the other
entries, the first iteration of the main loop admits that process at time 0
into the first slot of queue 2 and runs it from queue 2 for the slice computed
from its record. -/
theorem malformed_input_runs (pid a b : Int) (rest : List (Int × Int × Int)) (ha : a ≤ 0) :
    Event.arrives pid 0 ∈
        (iteration ((pid, a, b) :: rest).length (initial (mem_of ((pid, a, b) :: rest)))).out ∧
      Event.running pid 2 (exec_time (create_process pid a b) 2) ∈
        (iteration ((pid, a, b) :: rest).length (initial (mem_of ((pid, a, b) :: rest)))).out := by
  have hm0 : mem_of ((pid, a, b) :: rest) 0 = create_process pid a b := rfl
  have hlen : ((pid, a, b) :: rest).length = rest.length + 1 := rfl
  generalize hl : (pid, a, b) :: rest = l at hm0 hlen ⊢
  rw [hlen]
  have hw0 : (initial (mem_of l)).WF := fun q => le_refl _
  have hc : (initial (mem_of l)).process_idx < rest.length + 1 ∧
      ((initial (mem_of l)).mem (initial (mem_of l)).process_idx).arrival_time ≤
        (initial (mem_of l)).current_time := by
    refine ⟨Nat.succ_pos _, ?_⟩
    change (mem_of l 0).arrival_time ≤ 0
    rw [hm0]; exact ha
  have hstep : arrivals (rest.length + 1) (rest.length + 1 - (initial (mem_of l)).process_idx)
      (initial (mem_of l)) = arrivals (rest.length + 1) rest.length (arrive (initial (mem_of l))) := by
    change arrivals (rest.length + 1) (rest.length + 1) (initial (mem_of l)) = _
    rw [arrivals_succ, if_pos hc]
  have harr : Event.arrives pid 0 ∈ (arrive (initial (mem_of l))).out := by
    have : (arrive (initial (mem_of l))).out = [Event.arrives (mem_of l 0).pid 0] := rfl
    rw [this, hm0]
    exact List.mem_singleton.2 rfl
  obtain ⟨added, h1, _, _, _⟩ := arrivals_live (rest.length + 1) rest.length
    (arrive (initial (mem_of l))) (WF_arrive _ hw0)
  have hlive : (display_queues (arrivals (rest.length + 1) rest.length
      (arrive (initial (mem_of l))))).live 2 = 0 :: added := by
    rw [display_live, h1, live_arrive _ hw0, if_pos rfl]
    rfl
  obtain ⟨h, hp⟩ := head_eq_of_live _ 2 0 added hlive
  have hsched := schedule_eq_of_max _ 2 (by decide) h
    (fun q' h1 h2 => by unfold NUM_QUEUES at h2; omega)
  obtain ⟨tl, hout⟩ := run_process_out 2 _ h
  have hmem : (display_queues (arrivals (rest.length + 1) rest.length
      (arrive (initial (mem_of l))))).mem 0 = create_process pid a b := by
    rw [display_mem, arrivals_mem]
    exact hm0
  have hit : (iteration (rest.length + 1) (initial (mem_of l))).out =
      (reset_check (schedule NUM_QUEUES (display_queues
        (arrivals (rest.length + 1) rest.length (arrive (initial (mem_of l))))))).out := by
    rw [← hstep]; rfl
  rw [hit]
  constructor
  · apply reset_check_out_mono
    rw [hsched, hout]
    apply List.mem_append_left
    have := arrivals_out_mono (rest.length + 1) _ rest.length _ harr
    simp [display_queues, State.print, this]
  · apply reset_check_out_mono
    rw [hsched, hout, hp, hmem]
    apply List.mem_append_right
    exact List.mem_cons_self _ _

theorem malformed_input_runs_witness :
    (-3 : Int) ≤ 0 ∧
      Event.running 1 2 (exec_time (create_process 1 (-3) (-5)) 2) ∈
        (iteration ((1, -3, -5) :: []).length (initial (mem_of ((1, -3, -5) :: [])))).out :=
  ⟨by decide, (malformed_input_runs 1 (-3) (-5) [] (by decide)).2⟩


/-! ## Termination of the main loop -/

theorem sum_range_congr (n : Nat) (f g : Nat → Int) (h : ∀ i, g i = f i) :
    ((List.range n).map g).sum = ((List.range n).map f).sum := by
  congr 1
  exact List.map_congr_left (fun i _ => h i)

theorem sum_range_update (n p : Nat) (f g : Nat → Int) (hp : p < n)
    (h : ∀ i, i ≠ p → g i = f i) :
    ((List.range n).map g).sum = ((List.range n).map f).sum + (g p - f p) := by
  induction n with
  | zero => omega
  | succ n ih =>
    rw [List.range_succ, List.map_append, List.map_append, List.sum_append, List.sum_append]
    simp only [List.map_cons, List.map_nil, List.sum_cons, List.sum_nil, add_zero]
    by_cases hpn : p = n
    · have hc : ((List.range n).map g) = ((List.range n).map f) := by
        apply List.map_congr_left
        intro i hi
        have := List.mem_range.1 hi
        exact h i (by omega)
      rw [hc, hpn]
      ring
    · rw [ih (by omega), h n (Ne.symm hpn)]
      ring

theorem sum_range_nonneg (n : Nat) (f : Nat → Int) (h : ∀ i, 0 ≤ f i) :
    0 ≤ ((List.range n).map f).sum := by
  apply List.sum_nonneg
  intro x hx
  obtain ⟨i, _, rfl⟩ := List.mem_map.1 hx
  exact h i

theorem queues_empty_iff (s : State) :
    queues_empty s = true ↔ ∀ q, q < NUM_QUEUES → s.live q = [] := by
  simp only [queues_empty, queues_empty_loop, NUM_QUEUES, live_eq_nil_iff]
  constructor
  · intro h q hq
    have hq3 : q = 0 ∨ q = 1 ∨ q = 2 := by omega
    by_cases h0 : s.front 0 < s.rear 0
    · simp [h0] at h
    · by_cases h1 : s.front 1 < s.rear 1
      · simp [h0, h1] at h
      · by_cases h2 : s.front 2 < s.rear 2
        · simp [h0, h1, h2] at h
        · rcases hq3 with rfl | rfl | rfl <;> assumption
  · intro h
    simp [h 0 (by omega), h 1 (by omega), h 2 (by omega)]

theorem waiting_arrivals {n : Nat} {B : Int} {s : State} (hi : Inv n B s) (k : Nat) :
    waiting n (arrivals n k s) = waiting n s := by
  obtain ⟨added, h1, h2, h3, h4⟩ := arrivals_live n k s hi.wf
  have := hi.idx_le
  unfold waiting
  rw [h1, h2 1 (by decide), h2 0 (by decide), h3, List.length_append]
  rw [h3] at h4
  have : max n s.process_idx = n := max_eq_left hi.idx_le
  omega

theorem waiting_run_process {n : Nat} {B : Int} {s : State} (hi : Inv n B s) (q : Nat)
    (hq : q < NUM_QUEUES) (h : s.front q < s.rear q) :
    waiting n (run_process q s h) + (if (run_record (s.mem (s.head q h)) q
      s.current_time).remaining_time = 0 then 1 else 0) = waiting n s := by
  have hl := live_eq_head_cons s q h
  have ht : (s.live q).tail = (s.advance q).live q := by rw [hl]; rfl
  unfold waiting
  rw [run_process_live q s h hi.wf, run_process_live q s h hi.wf, run_process_live q s h hi.wf,
    run_process_process_idx]
  rcases route_target_cases q (run_record (s.mem (s.head q h)) q s.current_time) hq with
    ⟨h1, h2⟩ | ⟨d, hd, h1, h2⟩
  · rw [h1, if_pos h2]
    unfold NUM_QUEUES at hq
    have hq3 : q = 0 ∨ q = 1 ∨ q = 2 := by omega
    rcases hq3 with rfl | rfl | rfl <;> simp only [ht] <;> rw [hl] <;> simp <;> omega
  · rw [h1, if_neg h2]
    unfold NUM_QUEUES at hq hd
    have hq3 : q = 0 ∨ q = 1 ∨ q = 2 := by omega
    have hd3 : d = 0 ∨ d = 1 ∨ d = 2 := by omega
    rcases hq3 with rfl | rfl | rfl <;> rcases hd3 with rfl | rfl | rfl <;>
      simp only [ht] <;> rw [hl] <;> simp <;> omega

theorem reset_queue_remaining (q : Nat) :
    ∀ (k : Nat) (s : State) (i : Nat),
      ((reset_queue q k s).mem i).remaining_time = (s.mem i).remaining_time ∧
        ((reset_queue q k s).mem i).total_time_in_level = (s.mem i).total_time_in_level := by
  intro k
  induction k with
  | zero => intro s i; exact ⟨rfl, rfl⟩
  | succ k ih =>
    intro s i
    rw [reset_queue]
    split
    · rw [(ih _ i).1, (ih _ i).2, reset_move_remaining, reset_move_total]
      exact ⟨rfl, rfl⟩
    · exact ⟨rfl, rfl⟩

theorem reset_check_remaining (s : State) (i : Nat) :
    ((reset_check s).mem i).remaining_time = (s.mem i).remaining_time ∧
      ((reset_check s).mem i).total_time_in_level = (s.mem i).total_time_in_level := by
  unfold reset_check
  split
  · unfold priority_reset
    simp only []
    rw [(reset_queue_remaining 0 _ _ i).1, (reset_queue_remaining 0 _ _ i).2,
      (reset_queue_remaining 1 _ _ i).1, (reset_queue_remaining 1 _ _ i).2]
    exact ⟨rfl, rfl⟩
  · exact ⟨rfl, rfl⟩

theorem reset_queue_process_idx (q : Nat) :
    ∀ (k : Nat) (s : State), (reset_queue q k s).process_idx = s.process_idx := by
  intro k
  induction k with
  | zero => intro s; rfl
  | succ k ih =>
    intro s
    rw [reset_queue]
    split
    · rw [ih]; rfl
    · rfl

theorem reset_check_process_idx (s : State) :
    (reset_check s).process_idx = s.process_idx := by
  unfold reset_check
  split
  · unfold priority_reset
    simp only []
    rw [reset_queue_process_idx, reset_queue_process_idx]
    rfl
  · rfl

theorem waiting_reset_check (n : Nat) (s : State) (hw : s.WF) :
    waiting n (reset_check s) = waiting n s := by
  unfold waiting
  rw [reset_check_process_idx]
  by_cases hc : s.current_time.tmod RESET_PERIOD = 0 ∧ s.current_time > 0
  · rw [reset_check_live_fired s (hw 2) hc, reset_check_live_fired s (hw 2) hc,
      reset_check_live_fired s (hw 2) hc]
    simp
    omega
  · rw [reset_check_skipped s hc]


theorem run_process_measure {n : Nat} {B : Int} {s : State} (hi : Inv n B s) (q : Nat)
    (hq : q < NUM_QUEUES) (h : s.front q < s.rear q) :
    waiting n (run_process q s h) < waiting n s ∨
      (waiting n (run_process q s h) = waiting n s ∧
        potential n (run_process q s h).mem < potential n s.mem) ∨
      (waiting n (run_process q s h) = waiting n s ∧
        potential n (run_process q s h).mem = potential n s.mem ∧
        total_remaining n (run_process q s h).mem < total_remaining n s.mem) := by
  have hw := waiting_run_process hi q hq h
  have hpn : s.head q h < n := lt_of_lt_of_le (hi.head_lt q hq h).1 hi.idx_le
  have hpot := sum_range_update n (s.head q h)
    (fun i => (s.mem i).remaining_time + (s.mem i).total_time_in_level)
    (fun i => ((run_process q s h).mem i).remaining_time +
      ((run_process q s h).mem i).total_time_in_level) hpn
    (fun i hne => by simp only [run_process_mem_other q s h i hne])
  have hrec := run_process_mem_head q s h
  by_cases h0 : (run_record (s.mem (s.head q h)) q s.current_time).remaining_time = 0
  · left
    rw [if_pos h0] at hw
    omega
  · rw [if_neg h0] at hw
    right
    by_cases h1 : (run_record (s.mem (s.head q h)) q s.current_time).total_time_in_level ≥
        time_allotment q
    · left
      refine ⟨by omega, ?_⟩
      rw [if_pos ⟨h0, h1⟩] at hrec
      have hap := time_allotment_pos q hq
      unfold potential
      rw [hpot]
      simp only [hrec, demoted_record, run_record] at h1 ⊢
      omega
    · right
      rw [if_neg (fun hc => h1 hc.2)] at hrec
      refine ⟨by omega, ?_, ?_⟩
      · unfold potential
        rw [hpot]
        simp only [hrec, run_record]
        omega
      · have he := exec_time_pos_of_requeued (s.mem (s.head q h)) q s.current_time hq h0
          (not_le.1 h1)
        rw [total_remaining_sub n s.mem _ (s.head q h) (exec_time (s.mem (s.head q h)) q) hpn
          (fun i => run_process_remaining q s h i)]
        omega

theorem potential_nonneg {n : Nat} {m0 : Nat → Process} {s : State} (h2 : Inv2 n m0 s)
    (h0 : ∀ i, 0 ≤ (m0 i).remaining_time) :
    0 ≤ potential n s.mem ∧ 0 ≤ total_remaining n s.mem := by
  constructor
  · apply sum_range_nonneg
    intro i
    have := h2.nonneg h0 i
    omega
  · apply sum_range_nonneg
    intro i
    exact (h2.nonneg h0 i).1

theorem iteration_mem_sums (n : Nat) (s : State) :
    potential n (iteration n s).mem =
        potential n (schedule NUM_QUEUES
          (display_queues (arrivals n (n - s.process_idx) s))).mem ∧
      total_remaining n (iteration n s).mem =
        total_remaining n (schedule NUM_QUEUES
          (display_queues (arrivals n (n - s.process_idx) s))).mem := by
  constructor
  · apply sum_range_congr
    intro i
    have := reset_check_remaining (schedule NUM_QUEUES
      (display_queues (arrivals n (n - s.process_idx) s))) i
    change ((reset_check _).mem i).remaining_time + ((reset_check _).mem i).total_time_in_level = _
    rw [this.1, this.2]
  · apply sum_range_congr
    intro i
    exact (reset_check_remaining _ i).1

theorem iteration_waiting (n : Nat) (s : State) (hw : s.WF) :
    waiting n (iteration n s) =
      waiting n (schedule NUM_QUEUES (display_queues (arrivals n (n - s.process_idx) s))) :=
  waiting_reset_check n _ (WF_schedule _ (WF_display _ (WF_arrivals n _ s hw)))

theorem iteration_process_idx (n : Nat) (s : State) :
    (iteration n s).process_idx =
      (schedule NUM_QUEUES (display_queues (arrivals n (n - s.process_idx) s))).process_idx :=
  reset_check_process_idx _

theorem measure_lt_wf : WellFounded measure_lt :=
  WellFounded.prod_lex Nat.lt_wfRel.wf (WellFounded.prod_lex Nat.lt_wfRel.wf
    (WellFounded.prod_lex Nat.lt_wfRel.wf Nat.lt_wfRel.wf))

theorem measure_lt_of {a b c d a' b' c' d' : Nat}
    (h : a' < a ∨ (a' = a ∧ b' < b) ∨ (a' = a ∧ b' = b ∧ c' < c) ∨
      (a' = a ∧ b' = b ∧ c' = c ∧ d' < d)) :
    measure_lt (a', b', c', d') (a, b, c, d) := by
  unfold measure_lt
  rcases h with h | ⟨rfl, h⟩ | ⟨rfl, rfl, h⟩ | ⟨rfl, rfl, rfl, h⟩
  · exact Prod.Lex.left _ _ h
  · exact Prod.Lex.right _ (Prod.Lex.left _ _ h)
  · exact Prod.Lex.right _ (Prod.Lex.right _ (Prod.Lex.left _ _ h))
  · exact Prod.Lex.right _ (Prod.Lex.right _ (Prod.Lex.right _ h))

theorem iteration_measure_lt {n : Nat} {B : Int} {m0 : Nat → Process} {s : State}
    (hi : Inv n B s) (h2 : Inv2 n m0 s) (h0 : ∀ i, 0 ≤ (m0 i).remaining_time)
    (hc : loop_cond n s = true) :
    measure_lt (loop_measure n (iteration n s)) (loop_measure n s) := by
  have hia := Inv_selection hi
  have h2a := Inv2_selection hi h2
  have hwa : waiting n (display_queues (arrivals n (n - s.process_idx) s)) = waiting n s :=
    waiting_arrivals hi _
  have hma : (display_queues (arrivals n (n - s.process_idx) s)).mem = s.mem := by
    rw [display_mem, arrivals_mem]
  have hsums := iteration_mem_sums n s
  have hwi := iteration_waiting n s hi.wf
  have hnn := potential_nonneg (Inv2_iteration hi h2) h0
  have hnn0 := potential_nonneg h2 h0
  apply measure_lt_of
  rcases schedule_cases NUM_QUEUES (display_queues (arrivals n (n - s.process_idx) s)) with
    ⟨h1, hall⟩ | ⟨q, h, hq, _, h3⟩
  · -- idle iteration
    rw [h1] at hsums hwi
    rw [hma] at hsums
    right; right; right
    refine ⟨by omega, by rw [hsums.1], by rw [hsums.2], ?_⟩
    obtain ⟨added, l2, lq, hidx, _⟩ := arrivals_live n (n - s.process_idx) s hi.wf
    have hl2 : (arrivals n (n - s.process_idx) s).live 2 = [] :=
      (live_eq_nil_iff _ 2).2 (hall 2 (by decide))
    have hadd : added = [] := by
      rw [hl2] at l2
      exact (List.append_eq_nil.1 l2.symm).2
    rw [hadd] at hidx l2
    simp only [List.length_nil, add_zero, List.append_nil] at hidx l2
    have hempty : queues_empty s = true := by
      rw [queues_empty_iff]
      intro q hq
      unfold NUM_QUEUES at hq
      have hq3 : q = 0 ∨ q = 1 ∨ q = 2 := by omega
      rcases hq3 with rfl | rfl | rfl
      · rw [← lq 0 (by decide)]; exact (live_eq_nil_iff _ 0).2 (hall 0 (by decide))
      · rw [← lq 1 (by decide)]; exact (live_eq_nil_iff _ 1).2 (hall 1 (by decide))
      · rw [← l2]; exact hl2
    have hlt : s.process_idx < n := by
      unfold loop_cond at hc
      rw [hempty] at hc
      simpa using hc
    have hdone := arrivals_done n (n - s.process_idx) s (le_refl _)
    rw [hidx, arrivals_mem, arrivals_current_time] at hdone
    have harr : s.current_time < (s.mem s.process_idx).arrival_time := by
      by_contra hcc
      exact hdone ⟨hlt, not_lt.1 hcc⟩
    have hidx' : (iteration n s).process_idx = s.process_idx := by
      rw [iteration_process_idx, h1]
      exact hidx
    have htime : (iteration n s).current_time = s.current_time + 1 := by
      rw [iteration_current_time, h1, display_current_time, arrivals_current_time]
    have harr' : ((iteration n s).mem s.process_idx).arrival_time =
        (s.mem s.process_idx).arrival_time := by
      rw [(Inv2_iteration hi h2).arrival_eq, h2.arrival_eq]
    unfold idle_distance
    rw [hidx', htime, harr']
    omega
  · rw [h3] at hsums hwi
    have hm := run_process_measure hia q hq h
    rw [hma] at hm
    rw [hwa] at hm
    rcases hm with hm | ⟨hm1, hm2⟩ | ⟨hm1, hm2, hm3⟩
    · left; omega
    · right; left
      refine ⟨by omega, ?_⟩
      have := hnn.1
      have := hnn0.1
      omega
    · right; right; left
      refine ⟨by omega, by rw [hsums.1, hm2], ?_⟩
      have := hnn.2
      have := hnn0.2
      omega

theorem loop_terminates {n : Nat} {B : Int} {m0 : Nat → Process}
    (h0 : ∀ i, 0 ≤ (m0 i).remaining_time) :
    ∀ s : State, Inv n B s → Inv2 n m0 s → ∃ k, loop_cond n (iterations n k s) = false := by
  intro s
  refine (InvImage.wf (loop_measure n) measure_lt_wf).induction
    (C := fun s => Inv n B s → Inv2 n m0 s → ∃ k, loop_cond n (iterations n k s) = false) s ?_
  intro s ih hi h2
  cases hc : loop_cond n s with
  | false => exact ⟨0, hc⟩
  | true =>
    obtain ⟨k, hk⟩ := ih (iteration n s) (iteration_measure_lt hi h2 h0 hc)
      (Inv_iteration hi) (Inv2_iteration hi h2)
    refine ⟨k + 1, ?_⟩
    rw [iterations, hc]
    exact hk


/-- C11 (termination with completion).  For every process list with
non-negative burst times (arrival times arbitrary; queues and integers
unbounded) the main loop of `simulate_mlfq` stops after some number `k` of
iterations: with any bound of at least `k` iterations `simulate_mlfq` returns the
state `t` reached then, and in `t` the three queues are empty, every process has
been admitted (`process_idx` is the length of the list) and every process has
`remaining_time = 0`. -/
theorem termination (l : List (Int × Int × Int)) (hb : ∀ x ∈ l, 0 ≤ x.2.2) :
    ∃ (k : Nat) (t : State),
      (∀ j, simulate_mlfq l.length (k + j) (initial (mem_of l)) = some t) ∧
      (∀ q, q < NUM_QUEUES → t.live q = []) ∧
      t.process_idx = l.length ∧
      ∀ i, i < l.length → (t.mem i).remaining_time = 0 := by
  have hi0 := Inv_initial l.length (mem_of l)
  have h20 := Inv2_initial l
  obtain ⟨k, hk⟩ := loop_terminates (mem_of_nonneg l hb) _ hi0 h20
  have hi := Inv_iterations k _ hi0
  refine ⟨k, iterations l.length k (initial (mem_of l)), fun j => ?_, ?_⟩
  · unfold simulate_mlfq
    simp only []
    rw [iterations_add, iterations_of_stop l.length j _ hk, hk]
    rfl
  · generalize iterations l.length k (initial (mem_of l)) = t at hk hi
    unfold loop_cond at hk
    have hidx : ¬ t.process_idx < l.length := by
      intro hc
      simp [hc] at hk
    have hqe : queues_empty t = true := by
      cases hq : queues_empty t with
      | true => rfl
      | false => simp [hq] at hk
    have hlive := (queues_empty_iff t).1 hqe
    have hle := hi.idx_le
    refine ⟨hlive, by omega, fun i hil => ?_⟩
    apply hi.freed_done
    have ho := hi.occ_eq i
    rw [if_pos (by omega)] at ho
    unfold State.occ at ho
    rw [hlive 2 (by decide), hlive 1 (by decide), hlive 0 (by decide)] at ho
    simp only [List.count_nil, zero_add] at ho
    exact List.count_pos_iff.1 (by omega)

theorem termination_witness :
    (∀ x ∈ main_list, (0 : Int) ≤ x.2.2) ∧
      ∃ (k : Nat) (t : State),
        (∀ j, simulate_mlfq main_list.length (k + j) (initial (mem_of main_list)) = some t) ∧
        (∀ q, q < NUM_QUEUES → t.live q = []) ∧
        t.process_idx = main_list.length ∧
        ∀ i, i < main_list.length → (t.mem i).remaining_time = 0 :=
  ⟨by decide, termination main_list (by decide)⟩


end Mlfq
